import Mathlib

/-
Verification development for the sparse Liouville/diffusion superoperator
assembler in src/easyspin/private/chili_lm2.c.

Modelling conventions:
- C int quantum numbers are modelled as Int, C double values as Real.
- The spins I and Ib and the director tilt angle are stored in C doubles but
  are used only through the integer cast (int)(2*I) and through comparisons
  with 0; they are modelled as Rat so that the basis enumeration stays
  executable.
- The external angular-momentum coupling primitive jjj (header jjj.h) is an
  external collaborator of this file; it is modelled as an unspecified
  function carried in the parameter context.
- A C loop for (x = lo; x <= hi; x += step) with step > 0 is modelled by the
  list iseq lo hi step of its iteration values. For step <= 0 such a loop
  would not terminate, and iseq returns [] in that case, so all statements
  below are about the terminating executions of the code.
- The fatal mexErrMsgTxt exits inside makematrix are modelled by a sticky
  aborted flag in the assembly state: once set, every later step leaves the
  state unchanged.
-/

namespace Chili

noncomputable section

/-- Iteration value list of the C loop for (x = lo; x <= hi; x += step). -/
def iseq (lo hi step : ℤ) : List ℤ :=
  if 0 < step ∧ lo ≤ hi then
    (List.range ((hi - lo).toNat / step.toNat + 1)).map (fun n : ℕ => lo + step * (n : ℤ))
  else []

/-- C helper isodd (chili_lm2.c line 8): k % 2 as a truth value. The C
remainder of an odd negative int is -1, which is truthy, so the truth value
is k % 2 differing from 0 for every k. -/
def isodd (k : ℤ) : Bool := k % 2 != 0

/-- C helper parity (chili_lm2.c line 9): -1 for odd, +1 for even. -/
def parity (k : ℤ) : ℤ := if isodd k then -1 else 1

/-- C cast (int) q of a double value: truncation toward zero. On a rational
in lowest terms this is the rounded-toward-zero quotient of numerator by
denominator, which is what Int.div computes. -/
def twoTrunc (q : ℚ) : ℤ := Int.tdiv (2 * q.num) (q.den : ℤ)

/-- One basis index tuple (L, jK, K, M, pS, qS, pI, qI, pIb, qIb), the
transient enumeration state of the loop nests. -/
structure Idx where
  L : ℤ
  jK : ℤ
  K : ℤ
  M : ℤ
  pS : ℤ
  qS : ℤ
  pI : ℤ
  qI : ℤ
  pIb : ℤ
  qIb : ℤ
  deriving DecidableEq

/-- Basis truncation options parsed from basisopts (chili_lm2.c lines
669-678). MeirovitchSymm is an int used as a truth value. -/
structure BasisOpts where
  Lemax : ℤ
  Lomax : ℤ
  Kmax : ℤ
  Mmax : ℤ
  jKmin : ℤ
  pSmin : ℤ
  deltaK : ℤ
  MeirovitchSymm : ℤ
  pImax : ℤ
  pIbmax : ℤ
  deriving DecidableEq

/-- Full parameter context: the SystemStruct and DiffusionStruct records, the
basis options, the allocation limits, and the external jjj primitive. The
ImEZI2, ImHFI2 and ImHFI2b pointers may be null in C (mxGetPi), hence the
Option. Tensor component tables are total maps from the C array index. -/
structure Ctx where
  B : BasisOpts
  I : ℚ
  Ib : ℚ
  DirTilt : ℚ
  EZI0 : ℝ
  NZI0 : ℝ
  HFI0 : ℝ
  NZI0b : ℝ
  HFI0b : ℝ
  ReEZI2 : ℤ → ℝ
  ImEZI2 : Option (ℤ → ℝ)
  ReHFI2 : ℤ → ℝ
  ImHFI2 : Option (ℤ → ℝ)
  ReHFI2b : ℤ → ℝ
  ImHFI2b : Option (ℤ → ℝ)
  d2psi : ℤ → ℝ
  xlk : ℤ → ℝ
  Rxx : ℝ
  Ryy : ℝ
  Rzz : ℝ
  Exchange : ℝ
  maxL : ℤ
  maxElements : ℤ
  maxRows : ℤ
  jjj : ℤ → ℤ → ℤ → ℤ → ℤ → ℤ → ℝ

/-! Row enumeration of makematrix (chili_lm2.c lines 132-167), one definition
per loop level, innermost first. -/

/-- Loop over qI1b (line 167). -/
def rowsQIb (P : Ctx) (L1 jK1 K1 M1 pS1 qS1 pI1 qI1 pI1b : ℤ) : List Idx :=
  (iseq (-(twoTrunc P.Ib - |pI1b|)) (twoTrunc P.Ib - |pI1b|) 2).map
    (fun qI1b => ⟨L1, jK1, K1, M1, pS1, qS1, pI1, qI1, pI1b, qI1b⟩)

/-- Loop over pI1b with the symmetry filter of line 165, spelled
(pI1+pI1b+pS1-M1) != 1 as in makematrix. -/
def rowsPIb (P : Ctx) (L1 jK1 K1 M1 pS1 qS1 pI1 qI1 : ℤ) : List Idx :=
  (iseq (-P.B.pIbmax) P.B.pIbmax 1).flatMap (fun pI1b =>
    if P.B.MeirovitchSymm ≠ 0 ∧ P.DirTilt = 0 ∧ pI1 + pI1b + pS1 - M1 ≠ 1 then []
    else rowsQIb P L1 jK1 K1 M1 pS1 qS1 pI1 qI1 pI1b)

/-- Loop over qI1 (line 163). -/
def rowsQI (P : Ctx) (L1 jK1 K1 M1 pS1 qS1 pI1 : ℤ) : List Idx :=
  (iseq (-(twoTrunc P.I - |pI1|)) (twoTrunc P.I - |pI1|) 2).flatMap (fun qI1 =>
    rowsPIb P L1 jK1 K1 M1 pS1 qS1 pI1 qI1)

/-- Loop over pI1 (line 161). -/
def rowsPI (P : Ctx) (L1 jK1 K1 M1 pS1 qS1 : ℤ) : List Idx :=
  (iseq (-P.B.pImax) P.B.pImax 1).flatMap (fun pI1 =>
    rowsQI P L1 jK1 K1 M1 pS1 qS1 pI1)

/-- Loop over qS1 (line 160). -/
def rowsQS (P : Ctx) (L1 jK1 K1 M1 pS1 : ℤ) : List Idx :=
  (iseq (-(1 - |pS1|)) (1 - |pS1|) 2).flatMap (fun qS1 =>
    rowsPI P L1 jK1 K1 M1 pS1 qS1)

/-- Loop over pS1 (line 158). -/
def rowsPS (P : Ctx) (L1 jK1 K1 M1 : ℤ) : List Idx :=
  (iseq P.B.pSmin 1 1).flatMap (fun pS1 => rowsQS P L1 jK1 K1 M1 pS1)

/-- Loop over M1 (lines 155-156). -/
def rowsM (P : Ctx) (L1 jK1 K1 : ℤ) : List Idx :=
  (iseq (-(min P.B.Mmax L1)) (min P.B.Mmax L1) 1).flatMap (fun M1 =>
    rowsPS P L1 jK1 K1 M1)

/-- Loop over K1 with the K parity filter of line 137. -/
def rowsK (P : Ctx) (L1 jK1 : ℤ) : List Idx :=
  (iseq 0 (min P.B.Kmax L1) P.B.deltaK).flatMap (fun K1 =>
    if K1 = 0 ∧ parity L1 ≠ jK1 then [] else rowsM P L1 jK1 K1)

/-- Loop over jK1 (line 134). -/
def rowsJK (P : Ctx) (L1 : ℤ) : List Idx :=
  (iseq P.B.jKmin 1 2).flatMap (fun jK1 => rowsK P L1 jK1)

/-- Row tuples enumerated by the outer loop nest of makematrix (lines
132-167), with the odd-L filter of line 133. -/
def mmRows (P : Ctx) : List Idx :=
  (iseq 0 P.B.Lemax 1).flatMap (fun L1 =>
    if isodd L1 ∧ L1 > P.B.Lomax then [] else rowsJK P L1)

/-! Tuple enumeration of BasisSize (chili_lm2.c lines 549-602). The nest is a
hand-made duplicate of the row nest above; it is reproduced here separately,
with its own filter spellings: line 568 combines the two K conditions with a
bitwise AND of the 0/1 comparison results (same truth table as the logical
AND), and line 581 spells the symmetry filter (pI1+pI1b+pS1-1) != M1. -/

/-- BasisSize loop over qI1b (line 583). -/
def bsQIb (P : Ctx) (L1 jK1 K1 M1 pS1 qS1 pI1 qI1 pI1b : ℤ) : List Idx :=
  (iseq (-(twoTrunc P.Ib - |pI1b|)) (twoTrunc P.Ib - |pI1b|) 2).map
    (fun qI1b => ⟨L1, jK1, K1, M1, pS1, qS1, pI1, qI1, pI1b, qI1b⟩)

/-- BasisSize loop over pI1b with the filter of line 581. -/
def bsPIb (P : Ctx) (L1 jK1 K1 M1 pS1 qS1 pI1 qI1 : ℤ) : List Idx :=
  (iseq (-P.B.pIbmax) P.B.pIbmax 1).flatMap (fun pI1b =>
    if P.B.MeirovitchSymm ≠ 0 ∧ P.DirTilt = 0 ∧ pI1 + pI1b + pS1 - 1 ≠ M1 then []
    else bsQIb P L1 jK1 K1 M1 pS1 qS1 pI1 qI1 pI1b)

/-- BasisSize loop over qI1 (line 578). -/
def bsQI (P : Ctx) (L1 jK1 K1 M1 pS1 qS1 pI1 : ℤ) : List Idx :=
  (iseq (-(twoTrunc P.I - |pI1|)) (twoTrunc P.I - |pI1|) 2).flatMap (fun qI1 =>
    bsPIb P L1 jK1 K1 M1 pS1 qS1 pI1 qI1)

/-- BasisSize loop over pI1 (line 576). -/
def bsPI (P : Ctx) (L1 jK1 K1 M1 pS1 qS1 : ℤ) : List Idx :=
  (iseq (-P.B.pImax) P.B.pImax 1).flatMap (fun pI1 =>
    bsQI P L1 jK1 K1 M1 pS1 qS1 pI1)

/-- BasisSize loop over qS1 (line 574). -/
def bsQS (P : Ctx) (L1 jK1 K1 M1 pS1 : ℤ) : List Idx :=
  (iseq (-(1 - |pS1|)) (1 - |pS1|) 2).flatMap (fun qS1 =>
    bsPI P L1 jK1 K1 M1 pS1 qS1)

/-- BasisSize loop over pS1 (line 572). -/
def bsPS (P : Ctx) (L1 jK1 K1 M1 : ℤ) : List Idx :=
  (iseq P.B.pSmin 1 1).flatMap (fun pS1 => bsQS P L1 jK1 K1 M1 pS1)

/-- BasisSize loop over M1 (line 570). -/
def bsM (P : Ctx) (L1 jK1 K1 : ℤ) : List Idx :=
  (iseq (-(min P.B.Mmax L1)) (min P.B.Mmax L1) 1).flatMap (fun M1 =>
    bsPS P L1 jK1 K1 M1)

/-- BasisSize loop over K1 with the filter of line 568. -/
def bsK (P : Ctx) (L1 jK1 : ℤ) : List Idx :=
  (iseq 0 (min P.B.Kmax L1) P.B.deltaK).flatMap (fun K1 =>
    if K1 = 0 ∧ parity L1 ≠ jK1 then [] else bsM P L1 jK1 K1)

/-- BasisSize loop over jK1 (line 565). -/
def bsJK (P : Ctx) (L1 : ℤ) : List Idx :=
  (iseq P.B.jKmin 1 2).flatMap (fun jK1 => bsK P L1 jK1)

/-- Tuples surviving the BasisSize nest (lines 563-598). -/
def bsRows (P : Ctx) : List Idx :=
  (iseq 0 P.B.Lemax 1).flatMap (fun L1 =>
    if isodd L1 ∧ L1 > P.B.Lomax then [] else bsJK P L1)

/-- BasisSize (lines 549-602): the function increments a row counter once per
surviving tuple and returns it, which is the length of the iteration list. -/
def BasisSize (P : Ctx) : ℕ := (bsRows P).length

/-! Column enumeration of makematrix (lines 169-307). The running Bool models
the diagRC flag: it is initialized to true when the column sweep of a row
starts (line 170) and cleared after the first innermost body has run (line
510); hence at the entry of each inner loop it is true exactly while every
outer column loop variable still equals the corresponding row variable, which
is how it is threaded below. While the flag is true the lower loop bounds are
the row values (lines 180, 184, 275, 284, 288, 293, 297, 301, 306). -/

/-- Column loop over qI2b (line 307). -/
def colsQIb (P : Ctx) (r : Idx) (L2 jK2 K2 M2 pS2 qS2 pI2 qI2 pI2b : ℤ)
    (diag : Bool) : List Idx :=
  (iseq (if diag then r.qIb else -(twoTrunc P.Ib - |pI2b|))
      (twoTrunc P.Ib - |pI2b|) 2).map
    (fun qI2b => ⟨L2, jK2, K2, M2, pS2, qS2, pI2, qI2, pI2b, qI2b⟩)

/-- Column loop over pI2b with the symmetry filter of line 303, spelled
(pI2+pI2b+pS2-1) != M2. -/
def colsPIb (P : Ctx) (r : Idx) (L2 jK2 K2 M2 pS2 qS2 pI2 qI2 : ℤ)
    (diag : Bool) : List Idx :=
  (iseq (if diag then r.pIb else -P.B.pIbmax) P.B.pIbmax 1).flatMap (fun pI2b =>
    if P.B.MeirovitchSymm ≠ 0 ∧ P.DirTilt = 0 ∧ pI2 + pI2b + pS2 - 1 ≠ M2 then []
    else colsQIb P r L2 jK2 K2 M2 pS2 qS2 pI2 qI2 pI2b (diag && (pI2b == r.pIb)))

/-- Column loop over qI2 (line 298). -/
def colsQI (P : Ctx) (r : Idx) (L2 jK2 K2 M2 pS2 qS2 pI2 : ℤ)
    (diag : Bool) : List Idx :=
  (iseq (if diag then r.qI else -(twoTrunc P.I - |pI2|))
      (twoTrunc P.I - |pI2|) 2).flatMap (fun qI2 =>
    colsPIb P r L2 jK2 K2 M2 pS2 qS2 pI2 qI2 (diag && (qI2 == r.qI)))

/-- Column loop over pI2 (line 294). -/
def colsPI (P : Ctx) (r : Idx) (L2 jK2 K2 M2 pS2 qS2 : ℤ)
    (diag : Bool) : List Idx :=
  (iseq (if diag then r.pI else -P.B.pImax) P.B.pImax 1).flatMap (fun pI2 =>
    colsQI P r L2 jK2 K2 M2 pS2 qS2 pI2 (diag && (pI2 == r.pI)))

/-- Column loop over qS2 (line 289). -/
def colsQS (P : Ctx) (r : Idx) (L2 jK2 K2 M2 pS2 : ℤ)
    (diag : Bool) : List Idx :=
  (iseq (if diag then r.qS else -(1 - |pS2|)) (1 - |pS2|) 2).flatMap (fun qS2 =>
    colsPI P r L2 jK2 K2 M2 pS2 qS2 (diag && (qS2 == r.qS)))

/-- Column loop over pS2 (line 285). -/
def colsPS (P : Ctx) (r : Idx) (L2 jK2 K2 M2 : ℤ) (diag : Bool) : List Idx :=
  (iseq (if diag then r.pS else P.B.pSmin) 1 1).flatMap (fun pS2 =>
    colsQS P r L2 jK2 K2 M2 pS2 (diag && (pS2 == r.pS)))

/-- Column loop over M2 (lines 274-276). -/
def colsM (P : Ctx) (r : Idx) (L2 jK2 K2 : ℤ) (diag : Bool) : List Idx :=
  (iseq (if diag then r.M else -(min P.B.Mmax L2)) (min P.B.Mmax L2) 1).flatMap
    (fun M2 => colsPS P r L2 jK2 K2 M2 (diag && (M2 == r.M)))

/-- Column loop over K2 with the filter of line 186. -/
def colsK (P : Ctx) (r : Idx) (L2 jK2 : ℤ) (diag : Bool) : List Idx :=
  (iseq (if diag then r.K else 0) (min P.B.Kmax L2) P.B.deltaK).flatMap (fun K2 =>
    if K2 = 0 ∧ parity L2 ≠ jK2 then [] else colsM P r L2 jK2 K2 (diag && (K2 == r.K)))

/-- Column loop over jK2 (lines 180-181). -/
def colsJK (P : Ctx) (r : Idx) (L2 : ℤ) (diag : Bool) : List Idx :=
  (iseq (if diag then r.jK else P.B.jKmin) 1 2).flatMap (fun jK2 =>
    colsK P r L2 jK2 (diag && (jK2 == r.jK)))

/-- Column tuples enumerated from row r (lines 171-173): L2 runs from L1 up to
min(Lemax, L1 + Lband) with Lband = 8 (line 81), with the odd-L filter of
line 173. -/
def mmCols (P : Ctx) (r : Idx) : List Idx :=
  (iseq r.L (min P.B.Lemax (r.L + 8)) 1).flatMap (fun L2 =>
    if isodd L2 ∧ L2 > P.B.Lomax then [] else colsJK P r L2 (L2 == r.L))

/-- Column enumeration without the Lband cap on L2. This is a proof artifact
used to relate mmCols to the tail of mmRows; the capped list mmCols is a
prefix of it. -/
def mmColsNB (P : Ctx) (r : Idx) : List Idx :=
  (iseq r.L P.B.Lemax 1).flatMap (fun L2 =>
    if isodd L2 ∧ L2 > P.B.Lomax then [] else colsJK P r L2 (L2 == r.L))

/-! Matrix element computation (lines 139-151 and 192-485). The C code hoists
subexpressions to the outermost loop level at which they are available; the
hoisted values depend only on the loop variables bound at that level, so each
quantity is modelled as a function of the full row and column tuples. -/

/-- Literal constant sqrt12 (line 15). -/
def sqrt12 : ℝ := 0.70710678118655

/-- Literal constant sqrt13 (line 16). -/
def sqrt13 : ℝ := 0.57735026918963

/-- Literal constant sqrt23 (line 17). -/
def sqrt23 : ℝ := 0.81649658092773

/-- Diagonal potential-independent diffusion factor (line 142), a function of
the row quantum numbers L1 and K1. -/
def IsoDiffKdiag (P : Ctx) (L1 K1 : ℤ) : ℝ :=
  (P.Rxx + P.Ryy) / 2 * ((L1 * (L1 + 1) : ℤ) : ℝ) +
    ((K1 * K1 : ℤ) : ℝ) * (P.Rzz - (P.Rxx + P.Ryy) / 2)

/-- Off-diagonal-in-K diffusion factor computed with KK = K1 - 2 (lines
143-151); used when K1 - K2 = +2. -/
def IsoDiffKm2 (P : Ctx) (L1 K1 : ℤ) : ℝ :=
  if P.Rxx ≠ P.Ryy then
    (P.Rxx - P.Ryy) / 4 * Real.sqrt
      (((L1 - (K1 - 2) - 1) * (L1 - (K1 - 2)) * (L1 + (K1 - 2) + 1) * (L1 + (K1 - 2) + 2) : ℤ))
  else 0

/-- Off-diagonal-in-K diffusion factor computed with KK = K1 + 2 (lines
143-151); used when K1 - K2 = -2. -/
def IsoDiffKp2 (P : Ctx) (L1 K1 : ℤ) : ℝ :=
  if P.Rxx ≠ P.Ryy then
    (P.Rxx - P.Ryy) / 4 * Real.sqrt
      (((L1 + (K1 + 2) - 1) * (L1 + (K1 + 2)) * (L1 - (K1 + 2) + 1) * (L1 - (K1 + 2) + 2) : ℤ))
  else 0

/-- Reduced rank-2 interaction coupling (lines 196-231), parametrized by the
real and optional imaginary component tables; instantiated with the EZI2,
HFI2 and HFI2b tensors. The value is g1 + jK2 * parity(L2+K2) * g2 of the
source, with g1 the K-difference channel and g2 the K-sum channel. -/
def Rint2 (P : Ctx) (Re : ℤ → ℝ) (Im : Option (ℤ → ℝ)) (r c : Idx) : ℝ :=
  if |r.L - c.L| ≤ 2 then
    (if |r.K - c.K| ≤ 2 then
       (if r.jK = c.jK then
          P.jjj r.L 2 c.L r.K (-(r.K - c.K)) (-c.K) * Re (r.K - c.K + 2)
        else
          (match Im with
           | some f => P.jjj r.L 2 c.L r.K (-(r.K - c.K)) (-c.K) * f (r.K - c.K + 2) * (r.jK : ℝ)
           | none => 0))
     else 0)
    + (c.jK : ℝ) * (parity (c.L + c.K) : ℝ) *
      (if |r.K + c.K| ≤ 2 then
         (if r.jK = c.jK then
            P.jjj r.L 2 c.L r.K (-(r.K + c.K)) c.K * Re (r.K + c.K + 2)
          else
            (match Im with
             | some f => P.jjj r.L 2 c.L r.K (-(r.K + c.K)) c.K * f (r.K + c.K + 2) * (r.jK : ℝ)
             | none => 0))
       else 0)
  else 0

/-- Normalization factor N_K (lines 233-236): one factor 1/sqrt(2) for each of
K1 and K2 that is zero. -/
def N_K (K1 K2 : ℤ) : ℝ :=
  (if K1 = 0 then 1 / Real.sqrt 2 else 1) * (if K2 = 0 then 1 / Real.sqrt 2 else 1)

/-- Normalization prefactor N_L * N_K * parity(M1+K1) (lines 177-178, 239). -/
def NormFactor (r c : Idx) : ℝ :=
  Real.sqrt (((2 * r.L + 1) * (2 * c.L + 1) : ℤ)) * N_K r.K c.K * (parity (r.M + r.K) : ℝ)

/-- Term1 of the potential sum (lines 250-255). -/
def potTerm1 (P : Ctx) (r c : Idx) (L : ℤ) : ℝ :=
  if r.K - c.K ≥ -L then
    (if P.xlk ((r.K - c.K + L) * (P.maxL + 1) + L) ≠ 0 then
       P.xlk ((r.K - c.K + L) * (P.maxL + 1) + L) * P.jjj r.L L c.L r.K (-(r.K - c.K)) (-c.K)
     else 0)
  else 0

/-- Term2 of the potential sum (lines 256-261). -/
def potTerm2 (P : Ctx) (r c : Idx) (L : ℤ) : ℝ :=
  if r.K + c.K ≤ L then
    (if P.xlk ((r.K + c.K + L) * (P.maxL + 1) + L) ≠ 0 then
       (parity (c.L + c.K) : ℝ) * (c.jK : ℝ) * P.xlk ((r.K + c.K + L) * (P.maxL + 1) + L) *
         P.jjj r.L L c.L r.K (-(r.K + c.K)) c.K
     else 0)
  else 0

/-- Potential sum over the even orbital ranks L = 0, 2, ..., 8 (lines
249-264), before the normalization of line 265. -/
def PotSum (P : Ctx) (r c : Idx) : ℝ :=
  ((iseq 0 8 2).map (fun L =>
     if potTerm1 P r c L ≠ 0 ∨ potTerm2 P r c L ≠ 0 then
       (potTerm1 P r c L + potTerm2 P r c L) * P.jjj r.L L c.L r.M 0 (-r.M)
     else 0)).sum

/-- Potential-dependent diffusion term (lines 245-271): the band-limited,
parity-gated sum, scaled by the normalization prefactor (line 265). The
Potential flag of line 98 is maxL being nonnegative. -/
def PotDiff (P : Ctx) (r c : Idx) : ℝ :=
  if P.maxL ≥ 0 ∧ |r.L - c.L| ≤ 8 ∧ parity (r.K + c.K) = 1 ∧ r.jK - c.jK = 0 ∧
     |r.K - c.K| ≤ 8 ∧ |r.K + c.K| ≤ 8 then
    PotSum P r c * NormFactor r c
  else 0

/-- Product of the reduced rotation matrix element d2psi[(pd+2)+(Md+2)*5] and
the precomputed l = 2 Wigner 3j symbol Liou3j (lines 282 and 337). -/
def d2jjj (P : Ctx) (r c : Idx) : ℝ :=
  P.d2psi ((r.pS - c.pS) + (r.pI - c.pI) + (r.pIb - c.pIb) + 2 + (r.M - c.M + 2) * 5) *
    (if |r.L - c.L| ≤ 2 then P.jjj r.L 2 c.L r.M (-(r.M - c.M)) (-c.M) else 0)

/-- Clebsch-Gordan coefficient selection for one hyperfine nucleus (lines
363-394): the rank-0 coefficient C0, the rank-2 coefficient C2 and the spin
factor S_A, given the spin value and the row and difference quantum numbers
of that nucleus. The C code repeats this block verbatim for nucleus b with
its own variables (lines 405-436); it is factored here with those variables
as arguments. -/
def hfCS (Ispin : ℚ) (pS1 qS1 pI1 qI1 pSd qSd pId qId : ℤ) : ℝ × ℝ × ℝ :=
  if pId = 0 then
    (if pSd = 0 then
       (-sqrt13, sqrt23, ((pS1 * qI1 + pI1 * qS1 : ℤ) : ℝ) / 2)
     else
       (0, sqrt12, -((pI1 * pSd + qI1 * qSd : ℤ) : ℝ) / Real.sqrt 8))
  else
    (if pSd = 0 then
       (0, sqrt12,
        -((pS1 * pId + qS1 * qId : ℤ) : ℝ) *
          Real.sqrt ((Ispin : ℝ) * ((Ispin : ℝ) + 1) -
            (((qI1 * qId + pI1 * pId) * (qI1 * qId + pI1 * pId - 2) : ℤ) : ℝ) / 4) /
          Real.sqrt 8)
     else
       (sqrt13,
        (if pSd + pId = 0 then Real.sqrt (1 / 6) else 1),
        ((pSd * qId : ℤ) : ℝ) *
          Real.sqrt ((Ispin : ℝ) * ((Ispin : ℝ) + 1) -
            (((qI1 * qId + pI1 * pId) * (qI1 * qId + pI1 * pId - 2) : ℤ) : ℝ) / 4) / 2))

/-- Electronic Zeeman contribution to the Liouville element (lines 339-358),
gated on the nuclear subspaces being diagonal. -/
def EZterm (P : Ctx) (r c : Idx) : ℝ :=
  if r.pI - c.pI = 0 ∧ r.qI - c.qI = 0 ∧ r.pIb - c.pIb = 0 ∧ r.qIb - c.qIb = 0 then
    NormFactor r c * d2jjj P r c * Rint2 P P.ReEZI2 P.ImEZI2 r c *
      (if r.pS - c.pS = 0 then sqrt23 * (r.pS : ℝ)
       else sqrt12 * (-((r.qS - c.qS : ℤ) : ℝ) / Real.sqrt 2))
    + (if (r.L = c.L ∧ r.K = c.K ∧ r.jK - c.jK = 0 ∧ r.M - c.M = 0) ∧
          (r.pS - c.pS) + (r.pI - c.pI) + (r.pIb - c.pIb) = 0 then
         P.EZI0 * (-sqrt13 * (r.pS : ℝ))
       else 0)
  else 0

/-- Hyperfine contribution for nucleus 1 (lines 360-400). -/
def HFterm (P : Ctx) (r c : Idx) : ℝ :=
  if P.I > 0 ∧ (r.pS - c.pS) * (r.pI - c.pI) = (r.qS - c.qS) * (r.qI - c.qI) ∧
     r.pIb - c.pIb = 0 ∧ r.qIb - c.qIb = 0 then
    NormFactor r c * d2jjj P r c * Rint2 P P.ReHFI2 P.ImHFI2 r c *
      ((hfCS P.I r.pS r.qS r.pI r.qI (r.pS - c.pS) (r.qS - c.qS) (r.pI - c.pI) (r.qI - c.qI)).2.1 *
       (hfCS P.I r.pS r.qS r.pI r.qI (r.pS - c.pS) (r.qS - c.qS) (r.pI - c.pI) (r.qI - c.qI)).2.2)
    + (if (r.L = c.L ∧ r.K = c.K ∧ r.jK - c.jK = 0 ∧ r.M - c.M = 0) ∧
          (r.pS - c.pS) + (r.pI - c.pI) + (r.pIb - c.pIb) = 0 then
         P.HFI0 *
           ((hfCS P.I r.pS r.qS r.pI r.qI (r.pS - c.pS) (r.qS - c.qS) (r.pI - c.pI) (r.qI - c.qI)).1 *
            (hfCS P.I r.pS r.qS r.pI r.qI (r.pS - c.pS) (r.qS - c.qS) (r.pI - c.pI) (r.qI - c.qI)).2.2)
       else 0)
  else 0

/-- Hyperfine contribution for nucleus b (lines 402-442). -/
def HFbterm (P : Ctx) (r c : Idx) : ℝ :=
  if P.Ib > 0 ∧ (r.pS - c.pS) * (r.pIb - c.pIb) = (r.qS - c.qS) * (r.qIb - c.qIb) ∧
     r.pI - c.pI = 0 ∧ r.qI - c.qI = 0 then
    NormFactor r c * d2jjj P r c * Rint2 P P.ReHFI2b P.ImHFI2b r c *
      ((hfCS P.Ib r.pS r.qS r.pIb r.qIb (r.pS - c.pS) (r.qS - c.qS) (r.pIb - c.pIb) (r.qIb - c.qIb)).2.1 *
       (hfCS P.Ib r.pS r.qS r.pIb r.qIb (r.pS - c.pS) (r.qS - c.qS) (r.pIb - c.pIb) (r.qIb - c.qIb)).2.2)
    + (if (r.L = c.L ∧ r.K = c.K ∧ r.jK - c.jK = 0 ∧ r.M - c.M = 0) ∧
          (r.pS - c.pS) + (r.pI - c.pI) + (r.pIb - c.pIb) = 0 then
         P.HFI0b *
           ((hfCS P.Ib r.pS r.qS r.pIb r.qIb (r.pS - c.pS) (r.qS - c.qS) (r.pIb - c.pIb) (r.qIb - c.qIb)).1 *
            (hfCS P.Ib r.pS r.qS r.pIb r.qIb (r.pS - c.pS) (r.qS - c.qS) (r.pIb - c.pIb) (r.qIb - c.qIb)).2.2)
       else 0)
  else 0

/-- Nuclear Zeeman contribution (lines 444-451), rank-0 only, gated on full
spin diagonality and the rank-0 condition. -/
def NZterm (P : Ctx) (r c : Idx) : ℝ :=
  if (r.pS - c.pS = 0 ∧ r.qS - c.qS = 0) ∧
     (r.pI - c.pI = 0 ∧ r.qI - c.qI = 0 ∧ r.pIb - c.pIb = 0 ∧ r.qIb - c.qIb = 0) ∧
     (r.L = c.L ∧ r.K = c.K ∧ r.jK - c.jK = 0 ∧ r.M - c.M = 0) ∧
     (r.pS - c.pS) + (r.pI - c.pI) + (r.pIb - c.pIb) = 0 then
    P.NZI0 * -sqrt13 * (r.pI : ℝ) + P.NZI0b * -sqrt13 * (r.pIb : ℝ)
  else 0

/-- Matrix element of the Liouville operator (lines 313-453): the common gate
of lines 328-332, then the four interaction contributions. -/
def LiouvilleElement (P : Ctx) (r c : Idx) : ℝ :=
  if |r.L - c.L| ≤ 2 ∧ |r.M - c.M| ≤ 2 ∧
     (P.DirTilt ≠ 0 ∨ (r.pS - c.pS) + (r.pI - c.pI) + (r.pIb - c.pIb) = r.M - c.M) ∧
     |r.pS - c.pS| ≤ 1 ∧ |r.pI - c.pI| ≤ 1 ∧ |r.pIb - c.pIb| ≤ 1 ∧
     |r.pS - c.pS| = |r.qS - c.qS| ∧ |r.pI - c.pI| = |r.qI - c.qI| ∧
     |r.pIb - c.pIb| = |r.qIb - c.qIb| then
    EZterm P r c + HFterm P r c + HFbterm P r c + NZterm P r c
  else 0

/-- Exchange contribution to the diffusion element (lines 475-484). -/
def ExchTerm (P : Ctx) (r c : Idx) : ℝ :=
  if P.Exchange ≠ 0 ∧ r.pS - c.pS = 0 ∧ r.pI - c.pI = 0 ∧ r.pIb - c.pIb = 0 ∧
     (r.L = c.L ∧ r.K = c.K ∧ r.jK - c.jK = 0 ∧ r.M - c.M = 0) then
    ((if r.qI - c.qI = 0 ∧ r.qIb - c.qIb = 0 ∧ r.qS - c.qS = 0 then (1 : ℝ) else 0)
     - (if r.qI - c.qI = 0 ∧ r.qIb - c.qIb = 0 ∧ r.pS = 0 then (1 / 2 : ℝ) else 0)
     - (if r.pI = 0 ∧ r.pIb = 0 ∧ r.qS - c.qS = 0 then
          1 / (2 * (P.I : ℝ) + 1) / (2 * (P.Ib : ℝ) + 1) else 0)) * P.Exchange
  else 0

/-- Matrix element of the diffusion superoperator (lines 457-485): the
potential-independent part of lines 463-467, the potential-dependent part of
lines 469-472, both gated on spin diagonality, plus the exchange term. -/
def GammaElement (P : Ctx) (r c : Idx) : ℝ :=
  (if (r.pS - c.pS = 0 ∧ r.qS - c.qS = 0) ∧
      (r.pI - c.pI = 0 ∧ r.qI - c.qI = 0 ∧ r.pIb - c.pIb = 0 ∧ r.qIb - c.qIb = 0) then
     (if r.L - c.L = 0 ∧ r.M - c.M = 0 ∧ r.jK - c.jK = 0 then
        (if r.K - c.K = 0 then IsoDiffKdiag P r.L r.K
         else if r.K - c.K = 2 then IsoDiffKm2 P r.L r.K / N_K r.K c.K
         else if r.K - c.K = -2 then IsoDiffKp2 P r.L r.K / N_K r.K c.K
         else 0)
      else 0)
     + (if P.maxL ≥ 0 ∧ r.M - c.M = 0 ∧ r.jK - c.jK = 0 then PotDiff P r c else 0)
   else 0)
  + ExchTerm P r c

/-! Assembly pass (lines 96, 169-170 and 487-541). -/

/-- One write into the coordinate-list output buffers. The fields idx, row,
col, re and im are the data the C code commits, idx being the buffer position
iElement at write time; rt and ct record, for specification purposes only,
the row and column basis tuples of the pair that produced the write. -/
structure Entry where
  idx : ℕ
  row : ℕ
  col : ℕ
  re : ℝ
  im : ℝ
  rt : Idx
  ct : Idx

/-- Which of the two capacity checks fired (the mexErrMsgTxt calls of lines
505, 512 and 528). -/
inductive AbortKind where
  | elements
  | dimension
  deriving DecidableEq

/-- Assembly state of makematrix: committed writes in chronological order, the
element counter iElement, the row counter iRow, and whether a fatal capacity
error has fired. -/
structure MMState where
  entries : List Entry
  iElement : ℕ
  iRow : ℕ
  aborted : Option AbortKind

/-- Lines 491-506: if the diffusion or Liouville value is exactly nonzero,
commit the entry, commit the mirrored copy when diagRC is false, then run the
element-capacity check. The check runs after the writes. -/
def storeBlock (P : Ctx) (st : MMState) (r c : Idx) (iCol : ℕ) (diagRC : Bool) : MMState :=
  if GammaElement P r c ≠ 0 ∨ LiouvilleElement P r c ≠ 0 then
    (let st1 : MMState :=
      { st with
        entries := st.entries ++
          [⟨st.iElement, st.iRow, iCol, GammaElement P r c, -LiouvilleElement P r c, r, c⟩],
        iElement := st.iElement + 1 };
     let st2 : MMState :=
      if diagRC then st1
      else
        { st1 with
          entries := st1.entries ++
            [⟨st1.iElement, iCol, st.iRow, GammaElement P r c, -LiouvilleElement P r c, r, c⟩],
          iElement := st1.iElement + 1 };
     if (st2.iElement : ℤ) ≥ P.maxElements then { st2 with aborted := some AbortKind.elements }
     else st2)
  else st

/-- Processing of one column tuple: the store block, then the column counter
increment with the row-capacity check on iCol (lines 509-512) and the
clearing of diagRC (line 510). An aborted state is left unchanged. -/
def colStep (P : Ctx) (r : Idx) (s : MMState × ℕ × Bool) (c : Idx) : MMState × ℕ × Bool :=
  if s.1.aborted.isSome then s
  else
    (let st1 := storeBlock P s.1 r c s.2.1 s.2.2;
     if st1.aborted.isSome then (st1, s.2.1, s.2.2)
     else if ((s.2.1 + 1 : ℕ) : ℤ) ≥ P.maxRows then
       ({ st1 with aborted := some AbortKind.dimension }, s.2.1 + 1, false)
     else (st1, s.2.1 + 1, false))

/-- Processing of one row tuple: the column sweep starting at iCol = iRow with
diagRC = true (lines 169-170), then the row counter increment and its
capacity check (lines 526-528). An aborted state is left unchanged. -/
def rowStep (P : Ctx) (st : MMState) (r : Idx) : MMState :=
  if st.aborted.isSome then st
  else
    (let res := ((mmCols P r).foldl (colStep P r) (st, st.iRow, true)).1;
     if res.aborted.isSome then res
     else if ((res.iRow + 1 : ℕ) : ℤ) ≥ P.maxRows then
       { res with iRow := res.iRow + 1, aborted := some AbortKind.dimension }
     else { res with iRow := res.iRow + 1 })

/-- The assembly pass makematrix (lines 50-544): the fold of rowStep over the
row enumeration, starting from the all-zero state of line 96. On a completed
run, iRow and iElement are the nRows and nElements outputs (lines 540-541). -/
def makematrix (P : Ctx) : MMState :=
  (mmRows P).foldl (rowStep P) ⟨[], 0, 0, none⟩

/-- Outcome of the MEX entry point. -/
inductive MexOutcome where
  | debugReturn
  | err (msg : String)
  | done (st : MMState)

/-- Entry point mexFunction (lines 607-728): the single-input debug path of
lines 614-618, the arity checks of lines 620-621, then the main path, which
overwrites the row capacity with BasisSize() + 1 (lines 701-702) before
running makematrix. Argument marshalling itself is an external collaborator;
the parsed parameter record is the context P. -/
def mexFunction (nrhs nlhs : ℕ) (P : Ctx) : MexOutcome :=
  if nrhs = 1 then MexOutcome.debugReturn
  else if nrhs ≠ 4 then MexOutcome.err "4 input arguments expected!"
  else if nlhs ≠ 5 then MexOutcome.err "3 output arguments expected!"
  else MexOutcome.done (makematrix { P with maxRows := (BasisSize P : ℤ) + 1 })

/-! Concrete parameter contexts used as witnesses and counterexamples. -/

/-- Spinless rhombic-diffusion context: all interactions zero, no potential,
no exchange, Rxx = 1, Ryy = -1, Rzz = 0, a small basis (Lemax 2, Kmax 2,
deltaK 2), parametrized by the element capacity. -/
def ctxRh (me : ℤ) : Ctx where
  B := ⟨2, 0, 2, 0, 1, 1, 2, 1, 0, 0⟩
  I := 0
  Ib := 0
  DirTilt := 0
  EZI0 := 0
  NZI0 := 0
  HFI0 := 0
  NZI0b := 0
  HFI0b := 0
  ReEZI2 := fun _ => 0
  ImEZI2 := none
  ReHFI2 := fun _ => 0
  ImHFI2 := none
  ReHFI2b := fun _ => 0
  ImHFI2b := none
  d2psi := fun _ => 0
  xlk := fun _ => 0
  Rxx := 1
  Ryy := -1
  Rzz := 0
  Exchange := 0
  maxL := -1
  maxElements := me
  maxRows := 100
  jjj := fun _ _ _ _ _ _ => 0

/-- Spinless isotropic-diffusion context with Rxx = Ryy = Rzz = 1, zero
coupling primitive, basis Lemax 6, Kmax 6, deltaK 6, parametrized by the
potential truncation rank and the potential coefficient table. -/
def ctxIso (mL : ℤ) (x : ℤ → ℝ) : Ctx where
  B := ⟨6, 0, 6, 0, 1, 1, 6, 1, 0, 0⟩
  I := 0
  Ib := 0
  DirTilt := 0
  EZI0 := 0
  NZI0 := 0
  HFI0 := 0
  NZI0b := 0
  HFI0b := 0
  ReEZI2 := fun _ => 0
  ImEZI2 := none
  ReHFI2 := fun _ => 0
  ImHFI2 := none
  ReHFI2b := fun _ => 0
  ImHFI2b := none
  d2psi := fun _ => 0
  xlk := x
  Rxx := 1
  Ryy := 1
  Rzz := 1
  Exchange := 0
  maxL := mL
  maxElements := 1000
  maxRows := 1000
  jjj := fun _ _ _ _ _ _ => 0

/-- Row tuples of the rhombic context. -/
def Ridx0 : Idx := ⟨0, 1, 0, 0, 1, 0, 0, 0, 0, 0⟩

def Ridx1 : Idx := ⟨2, 1, 0, 0, 1, 0, 0, 0, 0, 0⟩

def Ridx2 : Idx := ⟨2, 1, 2, 0, 1, 0, 0, 0, 0, 0⟩

/-- Row tuples of the isotropic context. -/
def Sidx0 : Idx := ⟨0, 1, 0, 0, 1, 0, 0, 0, 0, 0⟩

def Sidx1 : Idx := ⟨2, 1, 0, 0, 1, 0, 0, 0, 0, 0⟩

def Sidx2 : Idx := ⟨4, 1, 0, 0, 1, 0, 0, 0, 0, 0⟩

def Sidx3 : Idx := ⟨6, 1, 0, 0, 1, 0, 0, 0, 0, 0⟩

def Sidx4 : Idx := ⟨6, 1, 6, 0, 1, 0, 0, 0, 0, 0⟩

/-! Infrastructure lemmas about iseq. -/

theorem iseq_nil_of_step (lo hi s : ℤ) (h : s ≤ 0) : iseq lo hi s = [] := by
  unfold iseq
  rw [if_neg]
  intro hc
  omega

theorem iseq_nil_of_gt (lo hi s : ℤ) (h : hi < lo) : iseq lo hi s = [] := by
  unfold iseq
  rw [if_neg]
  intro hc
  omega

theorem iseq_cons (lo hi s : ℤ) (hs : 0 < s) (hlh : lo ≤ hi) :
    iseq lo hi s = lo :: iseq (lo + s) hi s := by
  unfold iseq
  rw [if_pos ⟨hs, hlh⟩]
  by_cases h2 : lo + s ≤ hi
  · rw [if_pos ⟨hs, h2⟩]
    have hs' : 0 < s.toNat := by omega
    have h1 : (hi - lo).toNat = (hi - (lo + s)).toNat + s.toNat := by omega
    rw [h1, Nat.add_div_right _ hs', List.range_succ_eq_map, List.map_cons, List.map_map]
    congr 1
    · simp
    · apply List.map_congr_left
      intro n _
      simp only [Function.comp_apply, Nat.succ_eq_add_one]
      push_cast
      ring
  · rw [if_neg (by intro hc; exact h2 hc.2)]
    have h3 : (hi - lo).toNat / s.toNat = 0 := by
      apply Nat.div_eq_of_lt
      omega
    rw [h3]
    have h4 : List.range 1 = [0] := rfl
    rw [h4]
    simp

theorem mem_iseq (x lo hi s : ℤ) (h : x ∈ iseq lo hi s) :
    lo ≤ x ∧ x ≤ hi ∧ 0 < s ∧ s ∣ (x - lo) := by
  unfold iseq at h
  by_cases hc : 0 < s ∧ lo ≤ hi
  · rw [if_pos hc] at h
    simp only [List.mem_map, List.mem_range] at h
    obtain ⟨n, hn, rfl⟩ := h
    have hs := hc.1
    have hn2 : n ≤ (hi - lo).toNat / s.toNat := Nat.lt_succ_iff.mp hn
    have hmul : n * s.toNat ≤ (hi - lo).toNat := (Nat.le_div_iff_mul_le (by omega)).mp hn2
    refine ⟨by nlinarith [Int.natCast_nonneg n], ?_, hs, ⟨n, by ring⟩⟩
    have : (n : ℤ) * s ≤ hi - lo := by
      have h1 := Int.ofNat_le.mpr hmul
      rwa [Int.natCast_mul, Int.toNat_of_nonneg (by omega : (0 : ℤ) ≤ s),
        Int.toNat_of_nonneg (by omega : (0 : ℤ) ≤ hi - lo)] at h1
    nlinarith
  · rw [if_neg hc] at h
    exact absurd h (List.not_mem_nil x)

theorem iseq_split_aux (s : ℤ) (hs : 0 < s) : ∀ (n : ℕ) (lo hi : ℤ), lo + s * n ≤ hi →
    ∃ p, iseq lo hi s = p ++ iseq (lo + s * n) hi s := by
  intro n
  induction n with
  | zero => intro lo hi _; exact ⟨[], by simp⟩
  | succ m ih =>
    intro lo hi h
    have hlh : lo ≤ hi := by nlinarith [Int.natCast_nonneg m]
    obtain ⟨p, hp⟩ := ih (lo + s) hi (by push_cast at h ⊢; linarith [h])
    refine ⟨lo :: p, ?_⟩
    rw [iseq_cons lo hi s hs hlh, hp]
    have : lo + s + s * (m : ℤ) = lo + s * ((m : ℕ) + 1 : ℕ) := by push_cast; ring
    rw [List.cons_append, this]

theorem iseq_split (x lo hi s : ℤ) (h : x ∈ iseq lo hi s) :
    ∃ p, iseq lo hi s = p ++ iseq x hi s := by
  obtain ⟨h1, h2, hs, k, hk⟩ := mem_iseq x lo hi s h
  have hk0 : 0 ≤ k := by nlinarith
  obtain ⟨n, rfl⟩ := Int.eq_ofNat_of_zero_le hk0
  have hx : x = lo + s * n := by omega
  subst hx
  exact iseq_split_aux s hs n lo hi h2

theorem iseq_decomp_hi (lo hi2 hi s : ℤ) (h : hi2 ≤ hi) :
    ∃ t, iseq lo hi s = iseq lo hi2 s ++ t := by
  by_cases hc : 0 < s ∧ lo ≤ hi2
  · unfold iseq
    rw [if_pos hc, if_pos ⟨hc.1, le_trans hc.2 h⟩]
    have hmono : (hi2 - lo).toNat / s.toNat + 1 ≤ (hi - lo).toNat / s.toNat + 1 := by
      have : (hi2 - lo).toNat ≤ (hi - lo).toNat := by omega
      exact Nat.add_le_add_right (Nat.div_le_div_right this) 1
    refine ⟨((List.range ((hi - lo).toNat / s.toNat + 1)).drop
      ((hi2 - lo).toNat / s.toNat + 1)).map (fun n : ℕ => lo + s * (n : ℤ)), ?_⟩
    rw [← List.map_append]
    congr 1
    have h2 : List.range ((hi2 - lo).toNat / s.toNat + 1) =
        List.take ((hi2 - lo).toNat / s.toNat + 1)
          (List.range ((hi - lo).toNat / s.toNat + 1)) := by
      rw [List.take_range]
      congr 1
      omega
    rw [h2, List.take_append_drop]
  · have h0 : iseq lo hi2 s = [] := by
      unfold iseq
      rw [if_neg hc]
    exact ⟨iseq lo hi s, by rw [h0]; simp⟩

theorem iseq_nodup (lo hi s : ℤ) : (iseq lo hi s).Nodup := by
  unfold iseq
  by_cases hc : 0 < s ∧ lo ≤ hi
  · rw [if_pos hc]
    apply List.Nodup.map _ (List.nodup_range _)
    intro a b hab
    simp only at hab
    have h3 : s * (a : ℤ) = s * (b : ℤ) := by linarith
    have h2 : (a : ℤ) = (b : ℤ) := mul_left_cancel₀ (by omega : s ≠ 0) h3
    exact_mod_cast h2
  · rw [if_neg hc]
    exact List.nodup_nil

/-! Equality of the BasisSize nest and the makematrix row nest (claim C1
infrastructure). The two nests differ only in the spelling of the symmetry
filter and in the bitwise versus logical AND of line 568; both differences
are semantically invisible. -/

theorem meirFilter_iff (a b c M : ℤ) : (a + b + c - 1 ≠ M) ↔ (a + b + c - M ≠ 1) := by
  omega

theorem bsRows_eq_mmRows (P : Ctx) : bsRows P = mmRows P := by
  unfold bsRows mmRows bsJK rowsJK bsK rowsK bsM rowsM bsPS rowsPS bsQS rowsQS
    bsPI rowsPI bsQI rowsQI bsPIb rowsPIb bsQIb rowsQIb
  simp only [meirFilter_iff]

/-! Elementary facts about the assembly steps. -/

theorem storeBlock_iRow (P : Ctx) (st : MMState) (r c : Idx) (iCol : ℕ) (d : Bool) :
    (storeBlock P st r c iCol d).iRow = st.iRow := by
  simp only [storeBlock]
  split_ifs <;> rfl

theorem storeBlock_entries (P : Ctx) (st : MMState) (r c : Idx) (iCol : ℕ) (d : Bool) :
    ∃ Δ, (storeBlock P st r c iCol d).entries = st.entries ++ Δ := by
  simp only [storeBlock]
  split_ifs
  · exact ⟨_, rfl⟩
  · exact ⟨_, rfl⟩
  · exact ⟨_, by rw [List.append_assoc]⟩
  · exact ⟨_, by rw [List.append_assoc]⟩
  · exact ⟨[], by simp⟩

theorem storeBlock_iElement_ge (P : Ctx) (st : MMState) (r c : Idx) (iCol : ℕ) (d : Bool) :
    st.iElement ≤ (storeBlock P st r c iCol d).iElement := by
  simp only [storeBlock]
  split_ifs <;> simp <;> omega

theorem storeBlock_aborted (P : Ctx) (st : MMState) (r c : Idx) (iCol : ℕ) (d : Bool) :
    (storeBlock P st r c iCol d).aborted = st.aborted ∨
      (storeBlock P st r c iCol d).aborted = some AbortKind.elements := by
  simp only [storeBlock]
  split_ifs <;> simp

theorem colStep_frozen (P : Ctx) (r : Idx) (s : MMState × ℕ × Bool) (c : Idx)
    (h : s.1.aborted.isSome) : colStep P r s c = s := by
  simp only [colStep]
  rw [if_pos h]

theorem colStep_fst_iRow (P : Ctx) (r : Idx) (s : MMState × ℕ × Bool) (c : Idx) :
    (colStep P r s c).1.iRow = s.1.iRow := by
  simp only [colStep]
  split_ifs <;> simp [storeBlock_iRow]

theorem foldl_colStep_iRow (P : Ctx) (r : Idx) (l : List Idx) (s : MMState × ℕ × Bool) :
    ((l.foldl (colStep P r) s)).1.iRow = s.1.iRow := by
  induction l generalizing s with
  | nil => rfl
  | cons c l ih => rw [List.foldl_cons, ih, colStep_fst_iRow]

theorem rowStep_frozen (P : Ctx) (st : MMState) (r : Idx) (h : st.aborted.isSome) :
    rowStep P st r = st := by
  simp only [rowStep]
  rw [if_pos h]

theorem foldl_rowStep_frozen (P : Ctx) (l : List Idx) (st : MMState)
    (h : st.aborted.isSome) : l.foldl (rowStep P) st = st := by
  induction l with
  | nil => rfl
  | cons r l ih => rw [List.foldl_cons, rowStep_frozen P st r h, ih]

theorem rowStep_iRow_of_none (P : Ctx) (st : MMState) (r : Idx) (h0 : st.aborted = none)
    (h : (rowStep P st r).aborted = none) : (rowStep P st r).iRow = st.iRow + 1 := by
  have hcol : ((mmCols P r).foldl (colStep P r) (st, st.iRow, true)).1.iRow = st.iRow :=
    foldl_colStep_iRow P r _ _
  simp only [rowStep] at h ⊢
  rw [if_neg (by rw [h0]; simp)] at h ⊢
  revert h hcol
  generalize ((mmCols P r).foldl (colStep P r) (st, st.iRow, true)).1 = res
  intro hcol h
  by_cases h1 : res.aborted.isSome
  · rw [if_pos h1] at h
    exact absurd h (by rwa [Option.isSome_iff_ne_none] at h1)
  · rw [if_neg h1] at h ⊢
    by_cases h2 : ((res.iRow + 1 : ℕ) : ℤ) ≥ P.maxRows
    · rw [if_pos h2] at h
      simp at h
    · rw [if_neg h2]
      simp [hcol]

theorem foldl_rowStep_iRow (P : Ctx) (l : List Idx) (st : MMState)
    (h : (l.foldl (rowStep P) st).aborted = none) (h0 : st.aborted = none) :
    (l.foldl (rowStep P) st).iRow = st.iRow + l.length := by
  induction l generalizing st with
  | nil => simp
  | cons r l ih =>
    rw [List.foldl_cons] at h ⊢
    by_cases hr : (rowStep P st r).aborted = none
    · rw [ih _ h hr, rowStep_iRow_of_none P st r h0 hr, List.length_cons]
      omega
    · rw [foldl_rowStep_frozen P l _ (by rw [Option.isSome_iff_ne_none]; exact hr)] at h
      exact absurd h hr

/-- Final iRow of a completed run is the number of enumerated row tuples
(nRows at line 540). -/
theorem makematrix_iRow (P : Ctx) (h : (makematrix P).aborted = none) :
    (makematrix P).iRow = (mmRows P).length := by
  unfold makematrix at h ⊢
  rw [foldl_rowStep_iRow P _ _ h rfl]
  simp

theorem foldl_colStep_frozen (P : Ctx) (r : Idx) (l : List Idx) (s : MMState × ℕ × Bool)
    (h : s.1.aborted.isSome) : l.foldl (colStep P r) s = s := by
  induction l with
  | nil => rfl
  | cons c l ih => rw [List.foldl_cons, colStep_frozen P r s c h, ih]

/-- Generic propagation of an entry predicate through one store block: the old
entries satisfy Q, and Q holds of the entry the block would write and, when
diagRC is false, of its mirror. -/
theorem storeBlock_entries_inv (P : Ctx) (st : MMState) (r c : Idx) (iCol : ℕ) (d : Bool)
    (Q : Entry → Prop) (hst : ∀ e ∈ st.entries, Q e)
    (hnew : (GammaElement P r c ≠ 0 ∨ LiouvilleElement P r c ≠ 0) →
      Q ⟨st.iElement, st.iRow, iCol, GammaElement P r c, -LiouvilleElement P r c, r, c⟩ ∧
      (d = false →
        Q ⟨st.iElement + 1, iCol, st.iRow, GammaElement P r c, -LiouvilleElement P r c, r, c⟩)) :
    ∀ e ∈ (storeBlock P st r c iCol d).entries, Q e := by
  intro e he
  simp only [storeBlock] at he
  split_ifs at he with h1 h2 h3
  · simp only [List.mem_append, List.mem_singleton] at he
    rcases he with he | he
    · exact hst e he
    · rw [he]; exact (hnew h1).1
  · simp only [List.mem_append, List.mem_singleton] at he
    rcases he with he | he
    · exact hst e he
    · rw [he]; exact (hnew h1).1
  · simp only [List.mem_append, List.mem_singleton] at he
    rcases he with (he | he) | he
    · exact hst e he
    · rw [he]; exact (hnew h1).1
    · rw [he]; exact (hnew h1).2 (by revert h2; cases d <;> simp)
  · simp only [List.mem_append, List.mem_singleton] at he
    rcases he with (he | he) | he
    · exact hst e he
    · rw [he]; exact (hnew h1).1
    · rw [he]; exact (hnew h1).2 (by revert h2; cases d <;> simp)
  · exact hst e he

/-- Characterization of every committed entry: it comes from an enumerated
row tuple at position i and an enumerated column tuple at offset j, its
values are the diffusion element and the negated Liouville element of that
pair, at least one of the two is nonzero, and its coordinates are (i, i+j)
for the direct write or (i+j, i) with j positive for the mirrored write. -/
def EntryInv (P : Ctx) (e : Entry) : Prop :=
  ∃ i j, (mmRows P)[i]? = some e.rt ∧ (mmCols P e.rt)[j]? = some e.ct ∧
    (GammaElement P e.rt e.ct ≠ 0 ∨ LiouvilleElement P e.rt e.ct ≠ 0) ∧
    e.re = GammaElement P e.rt e.ct ∧ e.im = -LiouvilleElement P e.rt e.ct ∧
    ((e.row = i ∧ e.col = i + j) ∨ (e.row = i + j ∧ e.col = i ∧ j ≠ 0))

theorem colfold_entryInv (P : Ctx) (r : Idx) (i : ℕ) (hr : (mmRows P)[i]? = some r) :
    ∀ (l : List Idx) (k : ℕ) (st : MMState) (d : Bool),
      st.iRow = i →
      (∀ j c, l[j]? = some c → (mmCols P r)[k + j]? = some c) →
      (d = false → 0 < k) →
      (∀ e ∈ st.entries, EntryInv P e) →
      ∀ e ∈ ((l.foldl (colStep P r) (st, i + k, d)).1).entries, EntryInv P e := by
  intro l
  induction l with
  | nil => intro k st d _ _ _ hst; exact hst
  | cons c0 l ih =>
    intro k st d hiRow hcols hd hst
    rw [List.foldl_cons]
    by_cases hab : st.aborted.isSome
    · rw [colStep_frozen P r _ c0 hab, foldl_colStep_frozen P r l _ hab]
      exact hst
    · have hc0 : (mmCols P r)[k]? = some c0 := by
        have := hcols 0 c0 (by simp)
        simpa using this
      have hstore : ∀ e ∈ (storeBlock P st r c0 (i + k) d).entries, EntryInv P e := by
        apply storeBlock_entries_inv P st r c0 (i + k) d _ hst
        intro hnz
        constructor
        · exact ⟨i, k, by rw [hiRow]; exact ⟨hr, hc0, hnz, rfl, rfl, Or.inl ⟨rfl, rfl⟩⟩⟩
        · intro hdf
          exact ⟨i, k, by rw [hiRow]; exact ⟨hr, hc0, hnz, rfl, rfl,
            Or.inr ⟨rfl, rfl, by have := hd hdf; omega⟩⟩⟩
      simp only [colStep, hab]
      rw [if_neg (by simp [hab])]
      by_cases h1 : (storeBlock P st r c0 (i + k) d).aborted.isSome
      · rw [if_pos h1]
        rw [foldl_colStep_frozen P r l _ h1]
        exact hstore
      · rw [if_neg h1]
        have hcols2 : ∀ j c, l[j]? = some c → (mmCols P r)[(k + 1) + j]? = some c := by
          intro j c hj
          have := hcols (j + 1) c (by simpa using hj)
          rwa [show k + (j + 1) = k + 1 + j by omega] at this
        by_cases h2 : ((i + k + 1 : ℕ) : ℤ) ≥ P.maxRows
        · rw [if_pos h2]
          have : ∀ e ∈ ({ storeBlock P st r c0 (i + k) d with
              aborted := some AbortKind.dimension } : MMState).entries, EntryInv P e := hstore
          rw [foldl_colStep_frozen P r l _ (by simp)]
          exact this
        · rw [if_neg h2]
          have := ih (k + 1) (storeBlock P st r c0 (i + k) d) false
            (by rw [storeBlock_iRow]; exact hiRow) hcols2 (by omega) hstore
          rwa [show i + (k + 1) = i + k + 1 by omega] at this

theorem rowStep_entryInv (P : Ctx) (st : MMState) (r : Idx)
    (hr : (mmRows P)[st.iRow]? = some r)
    (hst : ∀ e ∈ st.entries, EntryInv P e) :
    ∀ e ∈ (rowStep P st r).entries, EntryInv P e := by
  by_cases hab : st.aborted.isSome
  · rw [rowStep_frozen P st r hab]; exact hst
  · have hcol : ∀ e ∈ (((mmCols P r).foldl (colStep P r) (st, st.iRow, true)).1).entries,
        EntryInv P e := by
      have := colfold_entryInv P r st.iRow hr (mmCols P r) 0 st true rfl
        (by intro j c hj; simpa using hj) (by simp) hst
      simpa using this
    simp only [rowStep]
    rw [if_neg hab]
    revert hcol
    generalize ((mmCols P r).foldl (colStep P r) (st, st.iRow, true)).1 = res
    intro hcol
    by_cases h1 : res.aborted.isSome
    · rw [if_pos h1]; exact hcol
    · rw [if_neg h1]
      by_cases h2 : ((res.iRow + 1 : ℕ) : ℤ) ≥ P.maxRows
      · rw [if_pos h2]; exact hcol
      · rw [if_neg h2]; exact hcol

theorem rowsfold_entryInv (P : Ctx) :
    ∀ (l done : List Idx) (st : MMState),
      mmRows P = done ++ l →
      st.iRow = done.length →
      st.aborted = none →
      (∀ e ∈ st.entries, EntryInv P e) →
      ∀ e ∈ (l.foldl (rowStep P) st).entries, EntryInv P e := by
  intro l
  induction l with
  | nil => intro done st _ _ _ hst; exact hst
  | cons r l ih =>
    intro done st hsplit hiRow hab hst
    rw [List.foldl_cons]
    have hr : (mmRows P)[st.iRow]? = some r := by
      rw [hiRow, hsplit, List.getElem?_append_right (le_refl done.length)]
      simp
    have hstep := rowStep_entryInv P st r hr hst
    by_cases habs : (rowStep P st r).aborted = none
    · exact ih (done ++ [r]) (rowStep P st r)
        (by rw [hsplit, List.append_assoc]; rfl)
        (by rw [rowStep_iRow_of_none P st r hab habs, hiRow]; simp)
        habs hstep
    · rw [foldl_rowStep_frozen P l _ (by rwa [Option.isSome_iff_ne_none])]
      exact hstep

/-- Every entry committed by makematrix satisfies the characterization. -/
theorem makematrix_entryInv (P : Ctx) :
    ∀ e ∈ (makematrix P).entries, EntryInv P e := by
  unfold makematrix
  exact rowsfold_entryInv P (mmRows P) [] ⟨[], 0, 0, none⟩ rfl rfl rfl (by intro e he; cases he)

/-! Symmetric mirroring and uniqueness of diagonal entries (claim C3). -/

/-- Mirror property of a list of committed entries: every off-diagonal entry
has a companion with swapped coordinates and identical values. -/
def MirrorProp (L : List Entry) : Prop :=
  ∀ e ∈ L, e.row ≠ e.col →
    ∃ e2 ∈ L, e2.row = e.col ∧ e2.col = e.row ∧ e2.re = e.re ∧ e2.im = e.im

/-- Number of committed entries at diagonal position (k, k). -/
def dcount (k : ℕ) (L : List Entry) : ℕ :=
  L.countP (fun e => e.row == k && e.col == k)

theorem dcount_append (k : ℕ) (L1 L2 : List Entry) :
    dcount k (L1 ++ L2) = dcount k L1 + dcount k L2 := by
  unfold dcount
  rw [List.countP_append]

theorem dcount_singleton (k : ℕ) (e : Entry) :
    dcount k [e] = if e.row = k ∧ e.col = k then 1 else 0 := by
  by_cases h : e.row = k ∧ e.col = k
  · simp [dcount, List.countP_cons, h.1, h.2]
  · rw [if_neg h]
    simp only [dcount, List.countP_cons, List.countP_nil]
    rcases Decidable.not_and_iff_or_not.mp h with h1 | h1 <;> simp [h1]

/-- The three shapes of the entry list after one store block. -/
theorem storeBlock_entries_cases (P : Ctx) (st : MMState) (r c : Idx) (iCol : ℕ) (d : Bool) :
    (storeBlock P st r c iCol d).entries = st.entries ∨
    ((GammaElement P r c ≠ 0 ∨ LiouvilleElement P r c ≠ 0) ∧ d = true ∧
      (storeBlock P st r c iCol d).entries = st.entries ++
        [⟨st.iElement, st.iRow, iCol, GammaElement P r c, -LiouvilleElement P r c, r, c⟩]) ∨
    ((GammaElement P r c ≠ 0 ∨ LiouvilleElement P r c ≠ 0) ∧ d = false ∧
      (storeBlock P st r c iCol d).entries = st.entries ++
        [⟨st.iElement, st.iRow, iCol, GammaElement P r c, -LiouvilleElement P r c, r, c⟩,
         ⟨st.iElement + 1, iCol, st.iRow, GammaElement P r c, -LiouvilleElement P r c, r, c⟩]) := by
  simp only [storeBlock]
  split_ifs with h1 h2 h3 h3
  · exact Or.inr (Or.inl ⟨h1, h2, rfl⟩)
  · exact Or.inr (Or.inl ⟨h1, h2, rfl⟩)
  · refine Or.inr (Or.inr ⟨h1, by revert h2; cases d <;> simp, ?_⟩)
    simp [List.append_assoc]
  · refine Or.inr (Or.inr ⟨h1, by revert h2; cases d <;> simp, ?_⟩)
    simp [List.append_assoc]
  · exact Or.inl rfl

theorem storeBlock_c3 (P : Ctx) (st : MMState) (r c : Idx) (iCol : ℕ) (d : Bool)
    (hdt : d = true → iCol = st.iRow) (hdf : d = false → st.iRow < iCol)
    (h1 : MirrorProp st.entries) (h2 : ∀ k, dcount k st.entries ≤ 1)
    (h3 : ∀ k, st.iRow < k → dcount k st.entries = 0)
    (h4 : d = true → ∀ k, st.iRow ≤ k → dcount k st.entries = 0) :
    MirrorProp (storeBlock P st r c iCol d).entries ∧
    (∀ k, dcount k (storeBlock P st r c iCol d).entries ≤ 1) ∧
    (∀ k, st.iRow < k → dcount k (storeBlock P st r c iCol d).entries = 0) := by
  rcases storeBlock_entries_cases P st r c iCol d with hE | ⟨hnz, hd, hE⟩ | ⟨hnz, hd, hE⟩
  · rw [hE]
    exact ⟨h1, h2, h3⟩
  · -- diagonal write: one entry at (iRow, iRow)
    have hic : iCol = st.iRow := hdt hd
    rw [hE]
    refine ⟨?_, ?_, ?_⟩
    · intro e he hne
      simp only [List.mem_append, List.mem_singleton] at he
      rcases he with he | he
      · obtain ⟨e2, he2, hh⟩ := h1 e he hne
        exact ⟨e2, by simp [he2], hh⟩
      · exact absurd (by rw [he]; exact hic.symm) hne
    · intro k
      rw [dcount_append, dcount_singleton]
      by_cases hk : st.iRow = k ∧ iCol = k
      · have h0 : dcount k st.entries = 0 := h4 hd k (le_of_eq hk.1)
        rw [h0, if_pos hk]
      · rw [if_neg hk]
        have := h2 k
        omega
    · intro k hk
      rw [dcount_append, dcount_singleton, h3 k hk,
        if_neg (show ¬(st.iRow = k ∧ iCol = k) by omega)]
  · -- off-diagonal write: entry plus mirror, neither on the diagonal
    have hlt : st.iRow < iCol := hdf hd
    rw [hE]
    have hsplit : st.entries ++
        [(⟨st.iElement, st.iRow, iCol, GammaElement P r c, -LiouvilleElement P r c, r, c⟩ : Entry),
         ⟨st.iElement + 1, iCol, st.iRow, GammaElement P r c, -LiouvilleElement P r c, r, c⟩] =
        st.entries ++
        [⟨st.iElement, st.iRow, iCol, GammaElement P r c, -LiouvilleElement P r c, r, c⟩] ++
        [⟨st.iElement + 1, iCol, st.iRow, GammaElement P r c, -LiouvilleElement P r c, r, c⟩] := by
      simp
    refine ⟨?_, ?_, ?_⟩
    · intro e he hne
      simp only [List.mem_append, List.mem_cons, List.mem_singleton, List.not_mem_nil,
        or_false] at he
      rcases he with he | he | he
      · obtain ⟨e2, he2, hh⟩ := h1 e he hne
        exact ⟨e2, by simp [he2], hh⟩
      · exact ⟨⟨st.iElement + 1, iCol, st.iRow, GammaElement P r c,
          -LiouvilleElement P r c, r, c⟩, by simp, by rw [he]; exact ⟨rfl, rfl, rfl, rfl⟩⟩
      · exact ⟨⟨st.iElement, st.iRow, iCol, GammaElement P r c,
          -LiouvilleElement P r c, r, c⟩, by simp, by rw [he]; exact ⟨rfl, rfl, rfl, rfl⟩⟩
    · intro k
      rw [hsplit, dcount_append, dcount_append, dcount_singleton, dcount_singleton,
        if_neg (show ¬(st.iRow = k ∧ iCol = k) by omega),
        if_neg (show ¬(iCol = k ∧ st.iRow = k) by omega)]
      have := h2 k
      omega
    · intro k hk
      rw [hsplit, dcount_append, dcount_append, dcount_singleton, dcount_singleton,
        h3 k hk, if_neg (show ¬(st.iRow = k ∧ iCol = k) by omega),
        if_neg (show ¬(iCol = k ∧ st.iRow = k) by omega)]

theorem colfold_c3 (P : Ctx) (r : Idx) :
    ∀ (l : List Idx) (st : MMState) (iCol : ℕ) (d : Bool),
      (d = true → iCol = st.iRow) → (d = false → st.iRow < iCol) →
      MirrorProp st.entries → (∀ k, dcount k st.entries ≤ 1) →
      (∀ k, st.iRow < k → dcount k st.entries = 0) →
      (d = true → ∀ k, st.iRow ≤ k → dcount k st.entries = 0) →
      MirrorProp (((l.foldl (colStep P r) (st, iCol, d)).1).entries) ∧
      (∀ k, dcount k (((l.foldl (colStep P r) (st, iCol, d)).1).entries) ≤ 1) ∧
      (∀ k, st.iRow < k → dcount k (((l.foldl (colStep P r) (st, iCol, d)).1).entries) = 0) := by
  intro l
  induction l with
  | nil => intro st iCol d _ _ hm h2 h3 _; exact ⟨hm, h2, h3⟩
  | cons c0 l ih =>
    intro st iCol d hdt hdf hm h2 h3 h4
    rw [List.foldl_cons]
    by_cases hab : st.aborted.isSome
    · rw [colStep_frozen P r _ c0 hab, foldl_colStep_frozen P r l _ hab]
      exact ⟨hm, h2, h3⟩
    · have hsb := storeBlock_c3 P st r c0 iCol d hdt hdf hm h2 h3 h4
      have hsbRow : (storeBlock P st r c0 iCol d).iRow = st.iRow := storeBlock_iRow P st r c0 iCol d
      simp only [colStep]
      rw [if_neg (by simpa using hab)]
      by_cases h1 : (storeBlock P st r c0 iCol d).aborted.isSome
      · rw [if_pos h1, foldl_colStep_frozen P r l _ h1]
        exact hsb
      · rw [if_neg h1]
        by_cases hcap : ((iCol + 1 : ℕ) : ℤ) ≥ P.maxRows
        · rw [if_pos hcap, foldl_colStep_frozen P r l _ (by simp)]
          exact hsb
        · rw [if_neg hcap]
          have hrec := ih (storeBlock P st r c0 iCol d) (iCol + 1) false
            (by simp)
            (by
              intro _
              rw [hsbRow]
              rcases Bool.eq_false_or_eq_true d with hd | hd
              · have := hdt hd; omega
              · have := hdf hd; omega)
            hsb.1 hsb.2.1
            (by rw [hsbRow]; exact hsb.2.2)
            (by simp)
          rw [hsbRow] at hrec
          exact hrec

theorem rowStep_entries_def (P : Ctx) (st : MMState) (r : Idx) (hab : st.aborted = none) :
    (rowStep P st r).entries =
      (((mmCols P r).foldl (colStep P r) (st, st.iRow, true)).1).entries := by
  simp only [rowStep]
  rw [if_neg (by simp [hab])]
  generalize ((mmCols P r).foldl (colStep P r) (st, st.iRow, true)).1 = res
  split_ifs <;> rfl

theorem rowsfold_c3 (P : Ctx) :
    ∀ (l : List Idx) (st : MMState),
      MirrorProp st.entries → (∀ k, dcount k st.entries ≤ 1) →
      (∀ k, st.iRow ≤ k → dcount k st.entries = 0) →
      MirrorProp ((l.foldl (rowStep P) st).entries) ∧
      (∀ k, dcount k ((l.foldl (rowStep P) st).entries) ≤ 1) := by
  intro l
  induction l with
  | nil => intro st hm h2 _; exact ⟨hm, h2⟩
  | cons r l ih =>
    intro st hm h2 h3
    rw [List.foldl_cons]
    by_cases hab : st.aborted.isSome
    · rw [rowStep_frozen P st r hab, foldl_rowStep_frozen P l st hab]
      exact ⟨hm, h2⟩
    · have habn : st.aborted = none := by rwa [← Option.not_isSome_iff_eq_none]
      have hcol := colfold_c3 P r (mmCols P r) st st.iRow true (fun _ => rfl)
        (by simp) hm h2 (fun k hk => h3 k (le_of_lt hk)) (fun _ => h3)
      have hE := rowStep_entries_def P st r habn
      by_cases habs : (rowStep P st r).aborted = none
      · have hiR : (rowStep P st r).iRow = st.iRow + 1 := rowStep_iRow_of_none P st r habn habs
        apply ih (rowStep P st r)
        · rw [hE]; exact hcol.1
        · rw [hE]; exact hcol.2.1
        · intro k hk
          rw [hE]
          exact hcol.2.2 k (by omega)
      · rw [foldl_rowStep_frozen P l _ (by rwa [Option.isSome_iff_ne_none])]
        exact ⟨by rw [hE]; exact hcol.1, by rw [hE]; exact hcol.2.1⟩

/-- Mirror property and diagonal uniqueness hold of every completed or aborted
assembly state. -/
theorem makematrix_c3 (P : Ctx) :
    MirrorProp ((makematrix P).entries) ∧ ∀ k, dcount k ((makematrix P).entries) ≤ 1 := by
  unfold makematrix
  exact rowsfold_c3 P (mmRows P) ⟨[], 0, 0, none⟩ (by intro e he; cases he)
    (by intro k; simp [dcount]) (by intro k _; simp [dcount])

/-! Completeness of the store pass (claim C4): on a run that does not abort,
every enumerated pair with a nonzero element yields a committed entry. -/

theorem storeBlock_mem_direct (P : Ctx) (st : MMState) (r c : Idx) (iCol : ℕ) (d : Bool)
    (hnz : GammaElement P r c ≠ 0 ∨ LiouvilleElement P r c ≠ 0) :
    (⟨st.iElement, st.iRow, iCol, GammaElement P r c, -LiouvilleElement P r c, r, c⟩ : Entry) ∈
      (storeBlock P st r c iCol d).entries := by
  simp only [storeBlock]
  rw [if_pos hnz]
  split_ifs <;> simp

theorem colStep_entries_ext (P : Ctx) (r : Idx) (s : MMState × ℕ × Bool) (c : Idx) :
    ∃ Δ, (colStep P r s c).1.entries = s.1.entries ++ Δ := by
  simp only [colStep]
  split_ifs with h1 h2 h3
  · exact ⟨[], by simp⟩
  · exact storeBlock_entries P s.1 r c s.2.1 s.2.2
  · exact storeBlock_entries P s.1 r c s.2.1 s.2.2
  · exact storeBlock_entries P s.1 r c s.2.1 s.2.2

theorem foldl_colStep_entries_ext (P : Ctx) (r : Idx) (l : List Idx) (s : MMState × ℕ × Bool) :
    ∃ Δ, (l.foldl (colStep P r) s).1.entries = s.1.entries ++ Δ := by
  induction l generalizing s with
  | nil => exact ⟨[], by simp⟩
  | cons c0 l ih =>
    rw [List.foldl_cons]
    obtain ⟨Δ1, h1⟩ := colStep_entries_ext P r s c0
    obtain ⟨Δ2, h2⟩ := ih (colStep P r s c0)
    exact ⟨Δ1 ++ Δ2, by rw [h2, h1, List.append_assoc]⟩

theorem rowStep_entries_ext (P : Ctx) (st : MMState) (r : Idx) :
    ∃ Δ, (rowStep P st r).entries = st.entries ++ Δ := by
  by_cases hab : st.aborted.isSome
  · exact ⟨[], by rw [rowStep_frozen P st r hab]; simp⟩
  · obtain ⟨Δ, hΔ⟩ := foldl_colStep_entries_ext P r (mmCols P r) (st, st.iRow, true)
    refine ⟨Δ, ?_⟩
    rw [rowStep_entries_def P st r (by rwa [← Option.not_isSome_iff_eq_none])]
    exact hΔ

theorem foldl_rowStep_entries_ext (P : Ctx) (l : List Idx) (st : MMState) :
    ∃ Δ, (l.foldl (rowStep P) st).entries = st.entries ++ Δ := by
  induction l generalizing st with
  | nil => exact ⟨[], by simp⟩
  | cons r l ih =>
    rw [List.foldl_cons]
    obtain ⟨Δ1, h1⟩ := rowStep_entries_ext P st r
    obtain ⟨Δ2, h2⟩ := ih (rowStep P st r)
    exact ⟨Δ1 ++ Δ2, by rw [h2, h1, List.append_assoc]⟩

theorem colfold_complete (P : Ctx) (r : Idx) :
    ∀ (l : List Idx) (st : MMState) (k : ℕ) (d : Bool),
      (((l.foldl (colStep P r) (st, st.iRow + k, d)).1).aborted = none) →
      ∀ (j : ℕ) (c : Idx), l[j]? = some c →
        (GammaElement P r c ≠ 0 ∨ LiouvilleElement P r c ≠ 0) →
        ∃ e ∈ ((l.foldl (colStep P r) (st, st.iRow + k, d)).1).entries,
          e.rt = r ∧ e.ct = c ∧ e.row = st.iRow ∧ e.col = st.iRow + k + j ∧
          e.re = GammaElement P r c ∧ e.im = -LiouvilleElement P r c := by
  intro l
  induction l with
  | nil =>
    intro st k d _ j c hj
    simp at hj
  | cons c0 l ih =>
    intro st k d habF j c hj hnz
    rw [List.foldl_cons] at habF ⊢
    by_cases hab : st.aborted.isSome
    · rw [colStep_frozen P r _ c0 hab, foldl_colStep_frozen P r l _ hab] at habF
      simp only [Option.isSome_iff_ne_none] at hab
      exact absurd habF hab
    · simp only [colStep] at habF ⊢
      rw [if_neg (by simpa using hab)] at habF ⊢
      by_cases h1 : (storeBlock P st r c0 (st.iRow + k) d).aborted.isSome
      · rw [if_pos h1, foldl_colStep_frozen P r l _ h1] at habF
        simp only [Option.isSome_iff_ne_none] at h1
        exact absurd habF h1
      · rw [if_neg h1] at habF ⊢
        by_cases hcap : ((st.iRow + k + 1 : ℕ) : ℤ) ≥ P.maxRows
        · rw [if_pos hcap, foldl_colStep_frozen P r l _ (by simp)] at habF
          simp at habF
        · rw [if_neg hcap] at habF ⊢
          cases j with
          | zero =>
            have hc : c0 = c := by simpa using hj
            subst hc
            obtain ⟨Δ, hΔ⟩ := foldl_colStep_entries_ext P r l
              (storeBlock P st r c0 (st.iRow + k) d, st.iRow + k + 1, false)
            refine ⟨⟨st.iElement, st.iRow, st.iRow + k, GammaElement P r c0,
              -LiouvilleElement P r c0, r, c0⟩, ?_, rfl, rfl, rfl, rfl, rfl, rfl⟩
            rw [hΔ]
            exact List.mem_append_left Δ (storeBlock_mem_direct P st r c0 (st.iRow + k) d hnz)
          | succ j' =>
            have hj' : l[j']? = some c := by simpa using hj
            have hiR2 : (storeBlock P st r c0 (st.iRow + k) d).iRow = st.iRow :=
              storeBlock_iRow P st r c0 (st.iRow + k) d
            have key := ih (storeBlock P st r c0 (st.iRow + k) d) (k + 1) false
            rw [hiR2] at key
            obtain ⟨e, hmem, he1, he2, he3, he4, he5, he6⟩ := key habF j' c hj' hnz
            exact ⟨e, hmem, he1, he2, he3, by omega, he5, he6⟩

theorem rowsfold_complete (P : Ctx) :
    ∀ (l done : List Idx) (st : MMState),
      mmRows P = done ++ l →
      st.iRow = done.length →
      st.aborted = none →
      ((l.foldl (rowStep P) st).aborted = none) →
      ∀ (i j : ℕ) (r c : Idx), (mmRows P)[i]? = some r → done.length ≤ i →
        (mmCols P r)[j]? = some c →
        (GammaElement P r c ≠ 0 ∨ LiouvilleElement P r c ≠ 0) →
        ∃ e ∈ ((l.foldl (rowStep P) st).entries),
          e.rt = r ∧ e.ct = c ∧ e.row = i ∧ e.col = i + j ∧
          e.re = GammaElement P r c ∧ e.im = -LiouvilleElement P r c := by
  intro l
  induction l with
  | nil =>
    intro done st hsplit hiRow hab habF i j r c hr hge hc hnz
    rw [hsplit] at hr
    rw [List.getElem?_eq_some] at hr
    obtain ⟨hlt, _⟩ := hr
    simp at hlt
    omega
  | cons r0 l ih =>
    intro done st hsplit hiRow hab habF i j r c hr hge hc hnz
    rw [List.foldl_cons] at habF ⊢
    have habs : (rowStep P st r0).aborted = none := by
      by_contra hne
      rw [foldl_rowStep_frozen P l _ (by rwa [Option.isSome_iff_ne_none])] at habF
      exact hne habF
    by_cases hieq : i = done.length
    · -- the pair belongs to the row processed in this step
      subst hieq
      have hr0 : r = r0 := by
        rw [hsplit, List.getElem?_append_right (le_refl done.length)] at hr
        simp at hr
        exact hr.symm
      subst hr0
      -- the inner sweep of this row commits the entry
      have hresab : (((mmCols P r).foldl (colStep P r) (st, st.iRow, true)).1).aborted
          = none := by
        by_contra hne
        have hsome : (((mmCols P r).foldl (colStep P r) (st, st.iRow, true)).1).aborted.isSome :=
          by rwa [Option.isSome_iff_ne_none]
        simp only [rowStep] at habs
        rw [if_neg (by simp [hab])] at habs
        rw [if_pos hsome] at habs
        exact hne habs
      have hk := colfold_complete P r (mmCols P r) st 0 true (by simpa using hresab) j c
        (by simpa using hc) hnz
      obtain ⟨e, hmem, he1, he2, he3, he4, he5, he6⟩ := hk
      obtain ⟨Δ, hΔ⟩ := foldl_rowStep_entries_ext P l (rowStep P st r)
      refine ⟨e, ?_, he1, he2, by omega, by omega, he5, he6⟩
      rw [hΔ, rowStep_entries_def P st r hab]
      apply List.mem_append_left
      simpa using hmem
    · -- the pair belongs to a later row
      have hiR : (rowStep P st r0).iRow = st.iRow + 1 := rowStep_iRow_of_none P st r0 hab habs
      exact ih (done ++ [r0]) (rowStep P st r0)
        (by rw [hsplit, List.append_assoc]; rfl)
        (by rw [hiR, hiRow]; simp)
        habs habF i j r c hr (by simp; omega) hc hnz

/-! Relation between the column sweep and the tail of the row enumeration
(claims C5 and C9). While diagRC is true the column loop nest runs over the
suffix of the row enumeration that starts at the current row tuple; the only
difference is the Lband cap on L2, which cuts a tail off that suffix. -/

theorem mem_ite_nil_left {α : Type} {c : Prop} [Decidable c] {L : List α} {y : α} :
    y ∈ (if c then ([] : List α) else L) ↔ ¬c ∧ y ∈ L := by
  split_ifs with h <;> simp [h]

theorem mem_of_mem_ite_nil {α : Type} {c : Prop} [Decidable c] {L : List α} {y : α}
    (h : y ∈ (if c then ([] : List α) else L)) : y ∈ L := by
  split_ifs at h with hc
  · exact absurd h (List.not_mem_nil y)
  · exact h

/-- Conditions a tuple satisfies exactly when the row loop nest emits it:
each component lies in its loop range, and the three skip filters pass. -/
structure RowValid (P : Ctx) (r : Idx) : Prop where
  hL : r.L ∈ iseq 0 P.B.Lemax 1
  hLodd : ¬(isodd r.L ∧ r.L > P.B.Lomax)
  hjK : r.jK ∈ iseq P.B.jKmin 1 2
  hK : r.K ∈ iseq 0 (min P.B.Kmax r.L) P.B.deltaK
  hKfilt : ¬(r.K = 0 ∧ parity r.L ≠ r.jK)
  hM : r.M ∈ iseq (-(min P.B.Mmax r.L)) (min P.B.Mmax r.L) 1
  hpS : r.pS ∈ iseq P.B.pSmin 1 1
  hqS : r.qS ∈ iseq (-(1 - |r.pS|)) (1 - |r.pS|) 2
  hpI : r.pI ∈ iseq (-P.B.pImax) P.B.pImax 1
  hqI : r.qI ∈ iseq (-(twoTrunc P.I - |r.pI|)) (twoTrunc P.I - |r.pI|) 2
  hpIb : r.pIb ∈ iseq (-P.B.pIbmax) P.B.pIbmax 1
  hfiltB : ¬(P.B.MeirovitchSymm ≠ 0 ∧ P.DirTilt = 0 ∧ r.pI + r.pIb + r.pS - r.M ≠ 1)
  hqIb : r.qIb ∈ iseq (-(twoTrunc P.Ib - |r.pIb|)) (twoTrunc P.Ib - |r.pIb|) 2

theorem mem_mmRows_valid (P : Ctx) (r : Idx) (h : r ∈ mmRows P) : RowValid P r := by
  obtain ⟨L, jK, K, M, pS, qS, pI, qI, pIb, qIb⟩ := r
  simp only [mmRows, rowsJK, rowsK, rowsM, rowsPS, rowsQS, rowsPI, rowsQI, rowsPIb, rowsQIb,
    List.mem_flatMap, List.mem_map, mem_ite_nil_left] at h
  obtain ⟨L1, hL1, hnodd, jK1, hjK1, K1, hK1, hKf, M1, hM1, pS1, hpS1, qS1, hqS1,
    pI1, hpI1, qI1, hqI1, pI1b, hpI1b, hfB, qI1b, hqI1b, heq⟩ := h
  rw [Idx.mk.injEq] at heq
  obtain ⟨rfl, rfl, rfl, rfl, rfl, rfl, rfl, rfl, rfl, rfl⟩ := heq
  exact ⟨hL1, hnodd, hjK1, hK1, hKf, hM1, hpS1, hqS1, hpI1, hqI1, hpI1b, hfB, hqI1b⟩

/-- When the diag flag is cleared, each column loop level coincides with the
corresponding row loop level; these identities are definitional. -/
theorem colsQIb_false (P : Ctx) (r : Idx) (L2 jK2 K2 M2 pS2 qS2 pI2 qI2 pI2b : ℤ) :
    colsQIb P r L2 jK2 K2 M2 pS2 qS2 pI2 qI2 pI2b false =
      rowsQIb P L2 jK2 K2 M2 pS2 qS2 pI2 qI2 pI2b := rfl

theorem colsPIb_false (P : Ctx) (r : Idx) (L2 jK2 K2 M2 pS2 qS2 pI2 qI2 : ℤ) :
    colsPIb P r L2 jK2 K2 M2 pS2 qS2 pI2 qI2 false = rowsPIb P L2 jK2 K2 M2 pS2 qS2 pI2 qI2 := by
  unfold colsPIb rowsPIb
  simp only [Bool.false_and, colsQIb_false, Bool.false_eq_true, if_false]
  apply List.flatMap_congr
  intro a _
  apply if_congr _ rfl rfl
  exact and_congr Iff.rfl (and_congr Iff.rfl (by omega))

theorem colsQI_false (P : Ctx) (r : Idx) (L2 jK2 K2 M2 pS2 qS2 pI2 : ℤ) :
    colsQI P r L2 jK2 K2 M2 pS2 qS2 pI2 false = rowsQI P L2 jK2 K2 M2 pS2 qS2 pI2 := by
  unfold colsQI rowsQI
  simp only [Bool.false_and, colsPIb_false, Bool.false_eq_true, if_false]

theorem colsPI_false (P : Ctx) (r : Idx) (L2 jK2 K2 M2 pS2 qS2 : ℤ) :
    colsPI P r L2 jK2 K2 M2 pS2 qS2 false = rowsPI P L2 jK2 K2 M2 pS2 qS2 := by
  unfold colsPI rowsPI
  simp only [Bool.false_and, colsQI_false, Bool.false_eq_true, if_false]

theorem colsQS_false (P : Ctx) (r : Idx) (L2 jK2 K2 M2 pS2 : ℤ) :
    colsQS P r L2 jK2 K2 M2 pS2 false = rowsQS P L2 jK2 K2 M2 pS2 := by
  unfold colsQS rowsQS
  simp only [Bool.false_and, colsPI_false, Bool.false_eq_true, if_false]

theorem colsPS_false (P : Ctx) (r : Idx) (L2 jK2 K2 M2 : ℤ) :
    colsPS P r L2 jK2 K2 M2 false = rowsPS P L2 jK2 K2 M2 := by
  unfold colsPS rowsPS
  simp only [Bool.false_and, colsQS_false, Bool.false_eq_true, if_false]

theorem colsM_false (P : Ctx) (r : Idx) (L2 jK2 K2 : ℤ) :
    colsM P r L2 jK2 K2 false = rowsM P L2 jK2 K2 := by
  unfold colsM rowsM
  simp only [Bool.false_and, colsPS_false, Bool.false_eq_true, if_false]

theorem colsK_false (P : Ctx) (r : Idx) (L2 jK2 : ℤ) :
    colsK P r L2 jK2 false = rowsK P L2 jK2 := by
  unfold colsK rowsK
  simp only [Bool.false_and, colsM_false, Bool.false_eq_true, if_false]

theorem colsJK_false (P : Ctx) (r : Idx) (L2 : ℤ) :
    colsJK P r L2 false = rowsJK P L2 := by
  unfold colsJK rowsJK
  simp only [Bool.false_and, colsK_false, Bool.false_eq_true, if_false]

/-- Generic one-level step: if the diag column body agrees with the row body
on the tail and reduces to the inner diag list at the diag value, the column
flatMap is a suffix of the row flatMap and starts with the row tuple. -/
theorem diag_step {x lo hi s : ℤ} {F G : ℤ → List Idx} {inner : List Idx} {r : Idx}
    {t p : List Idx}
    (hmem : x ∈ iseq lo hi s)
    (hFx : F x = inner)
    (hGx : G x = p ++ inner)
    (htail : ∀ y ∈ iseq (x + s) hi s, F y = G y)
    (hhead : inner = r :: t) :
    (∃ q, (iseq lo hi s).flatMap G = q ++ (iseq x hi s).flatMap F) ∧
    (∃ t2, (iseq x hi s).flatMap F = r :: t2) := by
  have hb := mem_iseq x lo hi s hmem
  have hcons : iseq x hi s = x :: iseq (x + s) hi s := iseq_cons x hi s hb.2.2.1 hb.2.1
  have htl : (iseq (x + s) hi s).flatMap F = (iseq (x + s) hi s).flatMap G :=
    List.flatMap_congr htail
  have hF : (iseq x hi s).flatMap F = inner ++ (iseq (x + s) hi s).flatMap G := by
    rw [hcons, List.flatMap_cons, hFx, htl]
  constructor
  · obtain ⟨p0, hp0⟩ := iseq_split x lo hi s hmem
    refine ⟨p0.flatMap G ++ p, ?_⟩
    rw [hp0, List.flatMap_append, hF, hcons, List.flatMap_cons, hGx]
    simp [List.append_assoc]
  · rw [hF, hhead]
    exact ⟨t ++ (iseq (x + s) hi s).flatMap G, by simp⟩

theorem colsDiag_qIb (P : Ctx) (r : Idx) (V : RowValid P r) :
    (∃ p, rowsQIb P r.L r.jK r.K r.M r.pS r.qS r.pI r.qI r.pIb =
      p ++ colsQIb P r r.L r.jK r.K r.M r.pS r.qS r.pI r.qI r.pIb true) ∧
    (∃ t, colsQIb P r r.L r.jK r.K r.M r.pS r.qS r.pI r.qI r.pIb true = r :: t) := by
  have hb := mem_iseq _ _ _ _ V.hqIb
  unfold colsQIb rowsQIb
  rw [if_pos rfl]
  constructor
  · obtain ⟨p0, hp0⟩ := iseq_split r.qIb _ _ _ V.hqIb
    exact ⟨p0.map (fun qI1b => ⟨r.L, r.jK, r.K, r.M, r.pS, r.qS, r.pI, r.qI, r.pIb, qI1b⟩),
      by rw [hp0, List.map_append]⟩
  · refine ⟨(iseq (r.qIb + 2) (twoTrunc P.Ib - |r.pIb|) 2).map
      (fun qI2b => ⟨r.L, r.jK, r.K, r.M, r.pS, r.qS, r.pI, r.qI, r.pIb, qI2b⟩), ?_⟩
    rw [iseq_cons _ _ _ hb.2.2.1 hb.2.1, List.map_cons]

theorem colsDiag_pIb (P : Ctx) (r : Idx) (V : RowValid P r) :
    (∃ p, rowsPIb P r.L r.jK r.K r.M r.pS r.qS r.pI r.qI =
      p ++ colsPIb P r r.L r.jK r.K r.M r.pS r.qS r.pI r.qI true) ∧
    (∃ t, colsPIb P r r.L r.jK r.K r.M r.pS r.qS r.pI r.qI true = r :: t) := by
  obtain ⟨⟨p, hp⟩, ⟨t, ht⟩⟩ := colsDiag_qIb P r V
  unfold colsPIb rowsPIb
  rw [if_pos rfl]
  refine diag_step (p := p) V.hpIb ?_ ?_ ?_ ht
  · rw [if_neg (fun hx => V.hfiltB ⟨hx.1, hx.2.1, by have := hx.2.2; omega⟩)]
    simp only [beq_self_eq_true, Bool.and_true]
  · rw [if_neg V.hfiltB]
    exact hp
  · intro y hy
    have hne : y ≠ r.pIb := by have := mem_iseq y _ _ _ hy; omega
    simp only [beq_eq_false_iff_ne.mpr hne, Bool.and_false, colsQIb_false]
    exact if_congr (and_congr Iff.rfl (and_congr Iff.rfl (by omega))) rfl rfl

theorem colsDiag_qI (P : Ctx) (r : Idx) (V : RowValid P r) :
    (∃ p, rowsQI P r.L r.jK r.K r.M r.pS r.qS r.pI =
      p ++ colsQI P r r.L r.jK r.K r.M r.pS r.qS r.pI true) ∧
    (∃ t, colsQI P r r.L r.jK r.K r.M r.pS r.qS r.pI true = r :: t) := by
  obtain ⟨⟨p, hp⟩, ⟨t, ht⟩⟩ := colsDiag_pIb P r V
  unfold colsQI rowsQI
  rw [if_pos rfl]
  refine diag_step (p := p) V.hqI ?_ ?_ ?_ ht
  · simp only [beq_self_eq_true, Bool.and_true]
  · exact hp
  · intro y hy
    have hne : y ≠ r.qI := by have := mem_iseq y _ _ _ hy; omega
    simp only [beq_eq_false_iff_ne.mpr hne, Bool.and_false, colsPIb_false]

theorem colsDiag_pI (P : Ctx) (r : Idx) (V : RowValid P r) :
    (∃ p, rowsPI P r.L r.jK r.K r.M r.pS r.qS =
      p ++ colsPI P r r.L r.jK r.K r.M r.pS r.qS true) ∧
    (∃ t, colsPI P r r.L r.jK r.K r.M r.pS r.qS true = r :: t) := by
  obtain ⟨⟨p, hp⟩, ⟨t, ht⟩⟩ := colsDiag_qI P r V
  unfold colsPI rowsPI
  rw [if_pos rfl]
  refine diag_step (p := p) V.hpI ?_ ?_ ?_ ht
  · simp only [beq_self_eq_true, Bool.and_true]
  · exact hp
  · intro y hy
    have hne : y ≠ r.pI := by have := mem_iseq y _ _ _ hy; omega
    simp only [beq_eq_false_iff_ne.mpr hne, Bool.and_false, colsQI_false]

theorem colsDiag_qS (P : Ctx) (r : Idx) (V : RowValid P r) :
    (∃ p, rowsQS P r.L r.jK r.K r.M r.pS =
      p ++ colsQS P r r.L r.jK r.K r.M r.pS true) ∧
    (∃ t, colsQS P r r.L r.jK r.K r.M r.pS true = r :: t) := by
  obtain ⟨⟨p, hp⟩, ⟨t, ht⟩⟩ := colsDiag_pI P r V
  unfold colsQS rowsQS
  rw [if_pos rfl]
  refine diag_step (p := p) V.hqS ?_ ?_ ?_ ht
  · simp only [beq_self_eq_true, Bool.and_true]
  · exact hp
  · intro y hy
    have hne : y ≠ r.qS := by have := mem_iseq y _ _ _ hy; omega
    simp only [beq_eq_false_iff_ne.mpr hne, Bool.and_false, colsPI_false]

theorem colsDiag_pS (P : Ctx) (r : Idx) (V : RowValid P r) :
    (∃ p, rowsPS P r.L r.jK r.K r.M =
      p ++ colsPS P r r.L r.jK r.K r.M true) ∧
    (∃ t, colsPS P r r.L r.jK r.K r.M true = r :: t) := by
  obtain ⟨⟨p, hp⟩, ⟨t, ht⟩⟩ := colsDiag_qS P r V
  unfold colsPS rowsPS
  rw [if_pos rfl]
  refine diag_step (p := p) V.hpS ?_ ?_ ?_ ht
  · simp only [beq_self_eq_true, Bool.and_true]
  · exact hp
  · intro y hy
    have hne : y ≠ r.pS := by have := mem_iseq y _ _ _ hy; omega
    simp only [beq_eq_false_iff_ne.mpr hne, Bool.and_false, colsQS_false]

theorem colsDiag_M (P : Ctx) (r : Idx) (V : RowValid P r) :
    (∃ p, rowsM P r.L r.jK r.K =
      p ++ colsM P r r.L r.jK r.K true) ∧
    (∃ t, colsM P r r.L r.jK r.K true = r :: t) := by
  obtain ⟨⟨p, hp⟩, ⟨t, ht⟩⟩ := colsDiag_pS P r V
  unfold colsM rowsM
  rw [if_pos rfl]
  refine diag_step (p := p) V.hM ?_ ?_ ?_ ht
  · simp only [beq_self_eq_true, Bool.and_true]
  · exact hp
  · intro y hy
    have hne : y ≠ r.M := by have := mem_iseq y _ _ _ hy; omega
    simp only [beq_eq_false_iff_ne.mpr hne, Bool.and_false, colsPS_false]

theorem colsDiag_K (P : Ctx) (r : Idx) (V : RowValid P r) :
    (∃ p, rowsK P r.L r.jK =
      p ++ colsK P r r.L r.jK true) ∧
    (∃ t, colsK P r r.L r.jK true = r :: t) := by
  obtain ⟨⟨p, hp⟩, ⟨t, ht⟩⟩ := colsDiag_M P r V
  unfold colsK rowsK
  rw [if_pos rfl]
  refine diag_step (p := p) V.hK ?_ ?_ ?_ ht
  · rw [if_neg V.hKfilt]
    simp only [beq_self_eq_true, Bool.and_true]
  · rw [if_neg V.hKfilt]
    exact hp
  · intro y hy
    have hne : y ≠ r.K := by have := mem_iseq y _ _ _ hy; omega
    simp only [beq_eq_false_iff_ne.mpr hne, Bool.and_false, colsM_false]

theorem colsDiag_jK (P : Ctx) (r : Idx) (V : RowValid P r) :
    (∃ p, rowsJK P r.L =
      p ++ colsJK P r r.L true) ∧
    (∃ t, colsJK P r r.L true = r :: t) := by
  obtain ⟨⟨p, hp⟩, ⟨t, ht⟩⟩ := colsDiag_K P r V
  unfold colsJK rowsJK
  rw [if_pos rfl]
  refine diag_step (p := p) V.hjK ?_ ?_ ?_ ht
  · simp only [beq_self_eq_true, Bool.and_true]
  · exact hp
  · intro y hy
    have hne : y ≠ r.jK := by have := mem_iseq y _ _ _ hy; omega
    simp only [beq_eq_false_iff_ne.mpr hne, Bool.and_false, colsK_false]

/-- The uncapped column sweep from a valid row tuple is a suffix of the row
enumeration, and its first element is the row tuple itself. -/
theorem mmColsNB_suffix_head (P : Ctx) (r : Idx) (hr : r ∈ mmRows P) :
    (∃ q, mmRows P = q ++ mmColsNB P r) ∧ (∃ t, mmColsNB P r = r :: t) := by
  have V := mem_mmRows_valid P r hr
  obtain ⟨⟨p, hp⟩, ⟨t, ht⟩⟩ := colsDiag_jK P r V
  unfold mmColsNB mmRows
  refine diag_step (p := p) V.hL ?_ ?_ ?_ ht
  · rw [if_neg V.hLodd]
    simp only [beq_self_eq_true]
  · rw [if_neg V.hLodd]
    exact hp
  · intro y hy
    have hne : y ≠ r.L := by have := mem_iseq y _ _ _ hy; omega
    simp only [beq_eq_false_iff_ne.mpr hne, colsJK_false]

/-- The banded column sweep is a prefix of the uncapped one. -/
theorem mmCols_prefix (P : Ctx) (r : Idx) :
    ∃ w, mmColsNB P r = mmCols P r ++ w := by
  unfold mmColsNB mmCols
  obtain ⟨t, htd⟩ := iseq_decomp_hi r.L (min P.B.Lemax (r.L + 8)) P.B.Lemax 1
    (min_le_left _ _)
  exact ⟨t.flatMap _, by rw [htd, List.flatMap_append]⟩

/-! The row enumeration has no duplicate tuples: every loop variable is
recorded in the emitted tuple, so distinct iteration points give distinct
tuples. -/

theorem nodup_flatMap_tag {α : Type} (l : List ℤ) (f : ℤ → List α) (tag : α → ℤ)
    (hl : l.Nodup) (hf : ∀ x ∈ l, (f x).Nodup) (htag : ∀ x ∈ l, ∀ y ∈ f x, tag y = x) :
    (l.flatMap f).Nodup := by
  rw [List.nodup_flatMap]
  refine ⟨hf, ?_⟩
  apply List.Pairwise.imp_of_mem _ hl
  intro a b ha hb hne
  intro y hya hyb
  exact hne ((htag a ha y hya) ▸ (htag b hb y hyb) ▸ rfl)

theorem rowsQIb_comp (P : Ctx) (L1 jK1 K1 M1 pS1 qS1 pI1 qI1 pI1b : ℤ) :
    ∀ y ∈ rowsQIb P L1 jK1 K1 M1 pS1 qS1 pI1 qI1 pI1b,
      y.L = L1 ∧ y.jK = jK1 ∧ y.K = K1 ∧ y.M = M1 ∧ y.pS = pS1 ∧ y.qS = qS1 ∧
      y.pI = pI1 ∧ y.qI = qI1 ∧ y.pIb = pI1b := by
  intro y hy
  simp only [rowsQIb, List.mem_map] at hy
  obtain ⟨q, _, rfl⟩ := hy
  exact ⟨rfl, rfl, rfl, rfl, rfl, rfl, rfl, rfl, rfl⟩

theorem rowsPIb_comp (P : Ctx) (L1 jK1 K1 M1 pS1 qS1 pI1 qI1 : ℤ) :
    ∀ y ∈ rowsPIb P L1 jK1 K1 M1 pS1 qS1 pI1 qI1,
      y.L = L1 ∧ y.jK = jK1 ∧ y.K = K1 ∧ y.M = M1 ∧ y.pS = pS1 ∧ y.qS = qS1 ∧
      y.pI = pI1 ∧ y.qI = qI1 := by
  intro y hy
  simp only [rowsPIb, List.mem_flatMap] at hy
  obtain ⟨pI1b, _, hy⟩ := hy
  have h := rowsQIb_comp P L1 jK1 K1 M1 pS1 qS1 pI1 qI1 pI1b y (mem_of_mem_ite_nil hy)
  exact ⟨h.1, h.2.1, h.2.2.1, h.2.2.2.1, h.2.2.2.2.1, h.2.2.2.2.2.1, h.2.2.2.2.2.2.1,
    h.2.2.2.2.2.2.2.1⟩

theorem rowsQI_comp (P : Ctx) (L1 jK1 K1 M1 pS1 qS1 pI1 : ℤ) :
    ∀ y ∈ rowsQI P L1 jK1 K1 M1 pS1 qS1 pI1,
      y.L = L1 ∧ y.jK = jK1 ∧ y.K = K1 ∧ y.M = M1 ∧ y.pS = pS1 ∧ y.qS = qS1 ∧
      y.pI = pI1 := by
  intro y hy
  simp only [rowsQI, List.mem_flatMap] at hy
  obtain ⟨qI1, _, hy⟩ := hy
  have h := rowsPIb_comp P L1 jK1 K1 M1 pS1 qS1 pI1 qI1 y hy
  exact ⟨h.1, h.2.1, h.2.2.1, h.2.2.2.1, h.2.2.2.2.1, h.2.2.2.2.2.1, h.2.2.2.2.2.2.1⟩

theorem rowsPI_comp (P : Ctx) (L1 jK1 K1 M1 pS1 qS1 : ℤ) :
    ∀ y ∈ rowsPI P L1 jK1 K1 M1 pS1 qS1,
      y.L = L1 ∧ y.jK = jK1 ∧ y.K = K1 ∧ y.M = M1 ∧ y.pS = pS1 ∧ y.qS = qS1 := by
  intro y hy
  simp only [rowsPI, List.mem_flatMap] at hy
  obtain ⟨pI1, _, hy⟩ := hy
  have h := rowsQI_comp P L1 jK1 K1 M1 pS1 qS1 pI1 y hy
  exact ⟨h.1, h.2.1, h.2.2.1, h.2.2.2.1, h.2.2.2.2.1, h.2.2.2.2.2.1⟩

theorem rowsQS_comp (P : Ctx) (L1 jK1 K1 M1 pS1 : ℤ) :
    ∀ y ∈ rowsQS P L1 jK1 K1 M1 pS1,
      y.L = L1 ∧ y.jK = jK1 ∧ y.K = K1 ∧ y.M = M1 ∧ y.pS = pS1 := by
  intro y hy
  simp only [rowsQS, List.mem_flatMap] at hy
  obtain ⟨qS1, _, hy⟩ := hy
  have h := rowsPI_comp P L1 jK1 K1 M1 pS1 qS1 y hy
  exact ⟨h.1, h.2.1, h.2.2.1, h.2.2.2.1, h.2.2.2.2.1⟩

theorem rowsPS_comp (P : Ctx) (L1 jK1 K1 M1 : ℤ) :
    ∀ y ∈ rowsPS P L1 jK1 K1 M1,
      y.L = L1 ∧ y.jK = jK1 ∧ y.K = K1 ∧ y.M = M1 := by
  intro y hy
  simp only [rowsPS, List.mem_flatMap] at hy
  obtain ⟨pS1, _, hy⟩ := hy
  have h := rowsQS_comp P L1 jK1 K1 M1 pS1 y hy
  exact ⟨h.1, h.2.1, h.2.2.1, h.2.2.2.1⟩

theorem rowsM_comp (P : Ctx) (L1 jK1 K1 : ℤ) :
    ∀ y ∈ rowsM P L1 jK1 K1, y.L = L1 ∧ y.jK = jK1 ∧ y.K = K1 := by
  intro y hy
  simp only [rowsM, List.mem_flatMap] at hy
  obtain ⟨M1, _, hy⟩ := hy
  have h := rowsPS_comp P L1 jK1 K1 M1 y hy
  exact ⟨h.1, h.2.1, h.2.2.1⟩

theorem rowsK_comp (P : Ctx) (L1 jK1 : ℤ) :
    ∀ y ∈ rowsK P L1 jK1, y.L = L1 ∧ y.jK = jK1 := by
  intro y hy
  simp only [rowsK, List.mem_flatMap] at hy
  obtain ⟨K1, _, hy⟩ := hy
  have h := rowsM_comp P L1 jK1 K1 y (mem_of_mem_ite_nil hy)
  exact ⟨h.1, h.2.1⟩

theorem rowsJK_comp (P : Ctx) (L1 : ℤ) :
    ∀ y ∈ rowsJK P L1, y.L = L1 := by
  intro y hy
  simp only [rowsJK, List.mem_flatMap] at hy
  obtain ⟨jK1, _, hy⟩ := hy
  exact (rowsK_comp P L1 jK1 y hy).1

theorem nodup_rowsQIb (P : Ctx) (L1 jK1 K1 M1 pS1 qS1 pI1 qI1 pI1b : ℤ) :
    (rowsQIb P L1 jK1 K1 M1 pS1 qS1 pI1 qI1 pI1b).Nodup := by
  apply List.Nodup.map _ (iseq_nodup _ _ _)
  intro a b hab
  simpa using hab

theorem nodup_rowsPIb (P : Ctx) (L1 jK1 K1 M1 pS1 qS1 pI1 qI1 : ℤ) :
    (rowsPIb P L1 jK1 K1 M1 pS1 qS1 pI1 qI1).Nodup := by
  apply nodup_flatMap_tag _ _ Idx.pIb (iseq_nodup _ _ _)
  · intro x _
    split_ifs
    · exact List.nodup_nil
    · exact nodup_rowsQIb P L1 jK1 K1 M1 pS1 qS1 pI1 qI1 x
  · intro x _ y hy
    exact (rowsQIb_comp P L1 jK1 K1 M1 pS1 qS1 pI1 qI1 x y
      (mem_of_mem_ite_nil hy)).2.2.2.2.2.2.2.2

theorem nodup_rowsQI (P : Ctx) (L1 jK1 K1 M1 pS1 qS1 pI1 : ℤ) :
    (rowsQI P L1 jK1 K1 M1 pS1 qS1 pI1).Nodup := by
  apply nodup_flatMap_tag _ _ Idx.qI (iseq_nodup _ _ _)
  · intro x _
    exact nodup_rowsPIb P L1 jK1 K1 M1 pS1 qS1 pI1 x
  · intro x _ y hy
    exact (rowsPIb_comp P L1 jK1 K1 M1 pS1 qS1 pI1 x y hy).2.2.2.2.2.2.2

theorem nodup_rowsPI (P : Ctx) (L1 jK1 K1 M1 pS1 qS1 : ℤ) :
    (rowsPI P L1 jK1 K1 M1 pS1 qS1).Nodup := by
  apply nodup_flatMap_tag _ _ Idx.pI (iseq_nodup _ _ _)
  · intro x _
    exact nodup_rowsQI P L1 jK1 K1 M1 pS1 qS1 x
  · intro x _ y hy
    exact (rowsQI_comp P L1 jK1 K1 M1 pS1 qS1 x y hy).2.2.2.2.2.2

theorem nodup_rowsQS (P : Ctx) (L1 jK1 K1 M1 pS1 : ℤ) :
    (rowsQS P L1 jK1 K1 M1 pS1).Nodup := by
  apply nodup_flatMap_tag _ _ Idx.qS (iseq_nodup _ _ _)
  · intro x _
    exact nodup_rowsPI P L1 jK1 K1 M1 pS1 x
  · intro x _ y hy
    exact (rowsPI_comp P L1 jK1 K1 M1 pS1 x y hy).2.2.2.2.2

theorem nodup_rowsPS (P : Ctx) (L1 jK1 K1 M1 : ℤ) :
    (rowsPS P L1 jK1 K1 M1).Nodup := by
  apply nodup_flatMap_tag _ _ Idx.pS (iseq_nodup _ _ _)
  · intro x _
    exact nodup_rowsQS P L1 jK1 K1 M1 x
  · intro x _ y hy
    exact (rowsQS_comp P L1 jK1 K1 M1 x y hy).2.2.2.2

theorem nodup_rowsM (P : Ctx) (L1 jK1 K1 : ℤ) :
    (rowsM P L1 jK1 K1).Nodup := by
  apply nodup_flatMap_tag _ _ Idx.M (iseq_nodup _ _ _)
  · intro x _
    exact nodup_rowsPS P L1 jK1 K1 x
  · intro x _ y hy
    exact (rowsPS_comp P L1 jK1 K1 x y hy).2.2.2

theorem nodup_rowsK (P : Ctx) (L1 jK1 : ℤ) :
    (rowsK P L1 jK1).Nodup := by
  apply nodup_flatMap_tag _ _ Idx.K (iseq_nodup _ _ _)
  · intro x _
    split_ifs
    · exact List.nodup_nil
    · exact nodup_rowsM P L1 jK1 x
  · intro x _ y hy
    exact (rowsM_comp P L1 jK1 x y (mem_of_mem_ite_nil hy)).2.2

theorem nodup_rowsJK (P : Ctx) (L1 : ℤ) :
    (rowsJK P L1).Nodup := by
  apply nodup_flatMap_tag _ _ Idx.jK (iseq_nodup _ _ _)
  · intro x _
    exact nodup_rowsK P L1 x
  · intro x _ y hy
    exact (rowsK_comp P L1 x y hy).2

theorem nodup_mmRows (P : Ctx) : (mmRows P).Nodup := by
  apply nodup_flatMap_tag _ _ Idx.L (iseq_nodup _ _ _)
  · intro x _
    split_ifs
    · exact List.nodup_nil
    · exact nodup_rowsJK P x
  · intro x _ y hy
    exact rowsJK_comp P x y (mem_of_mem_ite_nil hy)

/-- The column sweep from the row at position i can run at most to the end of
the row enumeration: i plus the number of column tuples is bounded by the
total number of rows. -/
theorem cols_len_bound (P : Ctx) (i : ℕ) (r : Idx) (hir : (mmRows P)[i]? = some r) :
    i + (mmCols P r).length ≤ (mmRows P).length := by
  have hmem : r ∈ mmRows P := by
    obtain ⟨h, heq⟩ := List.getElem?_eq_some.mp hir
    exact heq ▸ List.getElem_mem h
  obtain ⟨⟨q, hq⟩, ⟨t, ht⟩⟩ := mmColsNB_suffix_head P r hmem
  obtain ⟨w, hw⟩ := mmCols_prefix P r
  have h2 : (mmRows P)[q.length]? = some r := by
    rw [hq, List.getElem?_append_right (le_refl q.length)]
    simp [ht]
  have hieq : i = q.length := by
    apply List.getElem?_inj (List.getElem?_eq_some.mp hir).1 (nodup_mmRows P)
    rw [hir, h2]
  have hlen : (mmRows P).length = q.length + ((mmCols P r).length + w.length) := by
    rw [hq, hw]
    simp [List.length_append]
  omega

/-- First column tuple of a row is the row tuple itself (where the diagonal
element is processed while diagRC is still set). -/
theorem mmCols_head (P : Ctx) (r : Idx) (hr : r ∈ mmRows P) :
    ∃ t, mmCols P r = r :: t := by
  have V := mem_mmRows_valid P r hr
  obtain ⟨t, ht⟩ := (colsDiag_jK P r V).2
  unfold mmCols
  have hb := mem_iseq _ _ _ _ V.hL
  have hle : r.L ≤ min P.B.Lemax (r.L + 8) := le_min hb.2.1 (by omega)
  rw [iseq_cons r.L _ 1 one_pos hle, List.flatMap_cons, if_neg V.hLodd,
    show (r.L == r.L) = true from beq_self_eq_true r.L, ht]
  exact ⟨t ++ _, rfl⟩

/-! The row-capacity abort can never fire when the row capacity exceeds the
number of enumerated rows (claim C9 infrastructure). -/

theorem colfold_no_dim (P : Ctx) (r : Idx) :
    ∀ (l : List Idx) (st : MMState) (iCol : ℕ) (d : Bool),
      (((iCol + l.length : ℕ) : ℤ) < P.maxRows) →
      st.aborted ≠ some AbortKind.dimension →
      ((l.foldl (colStep P r) (st, iCol, d)).1).aborted ≠ some AbortKind.dimension := by
  intro l
  induction l with
  | nil => intro st iCol d _ hst; exact hst
  | cons c0 l ih =>
    intro st iCol d hcap hst
    rw [List.foldl_cons]
    by_cases hab : st.aborted.isSome
    · rw [colStep_frozen P r _ c0 hab, foldl_colStep_frozen P r l _ hab]
      exact hst
    · simp only [colStep]
      rw [if_neg (by simpa using hab)]
      have hsb : (storeBlock P st r c0 iCol d).aborted ≠ some AbortKind.dimension := by
        rcases storeBlock_aborted P st r c0 iCol d with h | h
        · rw [h]; exact hst
        · rw [h]; simp
      by_cases h1 : (storeBlock P st r c0 iCol d).aborted.isSome
      · rw [if_pos h1, foldl_colStep_frozen P r l _ h1]
        exact hsb
      · rw [if_neg h1]
        have hlt : ¬(((iCol + 1 : ℕ) : ℤ) ≥ P.maxRows) := by
          simp only [List.length_cons] at hcap
          push_cast at hcap ⊢
          omega
        rw [if_neg hlt]
        apply ih (storeBlock P st r c0 iCol d) (iCol + 1) false _ hsb
        simp only [List.length_cons] at hcap
        push_cast at hcap ⊢
        omega

theorem rowsfold_no_dim (P : Ctx) (hcap : (((mmRows P).length : ℕ) : ℤ) < P.maxRows) :
    ∀ (l done : List Idx), mmRows P = done ++ l →
    ∀ (st : MMState),
      (st.aborted = none → st.iRow = done.length) →
      st.aborted ≠ some AbortKind.dimension →
      ((l.foldl (rowStep P) st).aborted ≠ some AbortKind.dimension) := by
  intro l
  induction l with
  | nil => intro done _ st _ hst; exact hst
  | cons r0 l ih =>
    intro done hsplit st hiRow hst
    rw [List.foldl_cons]
    by_cases hab : st.aborted.isSome
    · rw [rowStep_frozen P st r0 hab, foldl_rowStep_frozen P l st hab]
      exact hst
    · have habn : st.aborted = none := by rwa [← Option.not_isSome_iff_eq_none]
      have hiR := hiRow habn
      have hr0 : (mmRows P)[done.length]? = some r0 := by
        rw [hsplit, List.getElem?_append_right (le_refl done.length)]
        simp
      have hbound := cols_len_bound P done.length r0 hr0
      have hlen : done.length + (l.length + 1) ≤ (mmRows P).length := by
        rw [hsplit, List.length_append, List.length_cons]
      have hcres : (((mmCols P r0).foldl (colStep P r0) (st, st.iRow, true)).1).aborted
          ≠ some AbortKind.dimension := by
        apply colfold_no_dim P r0 (mmCols P r0) st st.iRow true _ hst
        rw [hiR]
        push_cast
        omega
      have hcolR : (((mmCols P r0).foldl (colStep P r0) (st, st.iRow, true)).1).iRow = st.iRow :=
        foldl_colStep_iRow P r0 _ _
      have hstep : (rowStep P st r0).aborted ≠ some AbortKind.dimension := by
        simp only [rowStep]
        rw [if_neg hab]
        revert hcres hcolR
        generalize ((mmCols P r0).foldl (colStep P r0) (st, st.iRow, true)).1 = res
        intro hcres hcolR
        by_cases h1 : res.aborted.isSome
        · rw [if_pos h1]; exact hcres
        · rw [if_neg h1]
          have hRlt : ¬(((res.iRow + 1 : ℕ) : ℤ) ≥ P.maxRows) := by
            rw [hcolR, hiR]
            push_cast at hcap ⊢
            omega
          rw [if_neg hRlt]
          simpa using hcres
      by_cases habs : (rowStep P st r0).aborted = none
      · apply ih (done ++ [r0]) (by rw [hsplit, List.append_assoc]; rfl) (rowStep P st r0)
        · intro _
          rw [rowStep_iRow_of_none P st r0 habn habs, hiR]
          simp
        · exact hstep
      · rw [foldl_rowStep_frozen P l _ (by rwa [Option.isSome_iff_ne_none])]
        exact hstep

theorem makematrix_no_dim (P : Ctx) (hcap : (((mmRows P).length : ℕ) : ℤ) < P.maxRows) :
    (makematrix P).aborted ≠ some AbortKind.dimension := by
  unfold makematrix
  exact rowsfold_no_dim P hcap (mmRows P) [] rfl ⟨[], 0, 0, none⟩ (fun _ => rfl) (by simp)

/-! Monotonicity of the counters and a bound on the element counter. -/

theorem colStep_iElement_ge (P : Ctx) (r : Idx) (s : MMState × ℕ × Bool) (c : Idx) :
    s.1.iElement ≤ (colStep P r s c).1.iElement := by
  simp only [colStep]
  split_ifs <;> simp [storeBlock_iElement_ge]

theorem foldl_colStep_iElement_ge (P : Ctx) (r : Idx) (l : List Idx) (s : MMState × ℕ × Bool) :
    s.1.iElement ≤ (l.foldl (colStep P r) s).1.iElement := by
  induction l generalizing s with
  | nil => exact le_refl _
  | cons c0 l ih => exact le_trans (colStep_iElement_ge P r s c0) (ih (colStep P r s c0))

theorem rowStep_iElement_ge (P : Ctx) (st : MMState) (r : Idx) :
    st.iElement ≤ (rowStep P st r).iElement := by
  by_cases hab : st.aborted.isSome
  · rw [rowStep_frozen P st r hab]
  · have h := foldl_colStep_iElement_ge P r (mmCols P r) (st, st.iRow, true)
    simp only [rowStep]
    rw [if_neg hab]
    revert h
    generalize ((mmCols P r).foldl (colStep P r) (st, st.iRow, true)).1 = res
    intro h
    split_ifs <;> simpa using h

theorem foldl_rowStep_iElement_ge (P : Ctx) (l : List Idx) (st : MMState) :
    st.iElement ≤ (l.foldl (rowStep P) st).iElement := by
  induction l generalizing st with
  | nil => exact le_refl _
  | cons r l ih => exact le_trans (rowStep_iElement_ge P st r) (ih (rowStep P st r))

theorem rowStep_iRow_ge (P : Ctx) (st : MMState) (r : Idx) :
    st.iRow ≤ (rowStep P st r).iRow := by
  by_cases hab : st.aborted.isSome
  · rw [rowStep_frozen P st r hab]
  · have h := foldl_colStep_iRow P r (mmCols P r) (st, st.iRow, true)
    simp only [rowStep]
    rw [if_neg hab]
    revert h
    generalize ((mmCols P r).foldl (colStep P r) (st, st.iRow, true)).1 = res
    intro h
    split_ifs <;> simp [h]

theorem foldl_rowStep_iRow_ge (P : Ctx) (l : List Idx) (st : MMState) :
    st.iRow ≤ (l.foldl (rowStep P) st).iRow := by
  induction l generalizing st with
  | nil => exact le_refl _
  | cons r l ih => exact le_trans (rowStep_iRow_ge P st r) (ih (rowStep P st r))

theorem storeBlock_iElement_le2 (P : Ctx) (st : MMState) (r c : Idx) (iCol : ℕ) (d : Bool) :
    (storeBlock P st r c iCol d).iElement ≤ st.iElement + 2 := by
  simp only [storeBlock]
  split_ifs <;> simp

theorem colStep_iElement_le2 (P : Ctx) (r : Idx) (s : MMState × ℕ × Bool) (c : Idx) :
    (colStep P r s c).1.iElement ≤ s.1.iElement + 2 := by
  simp only [colStep]
  split_ifs <;> simp [storeBlock_iElement_le2]

theorem colfold_iElement_le (P : Ctx) (r : Idx) (l : List Idx) (s : MMState × ℕ × Bool) :
    (l.foldl (colStep P r) s).1.iElement ≤ s.1.iElement + 2 * l.length := by
  induction l generalizing s with
  | nil => simp
  | cons c0 l ih =>
    rw [List.foldl_cons]
    have h1 := colStep_iElement_le2 P r s c0
    have h2 := ih (colStep P r s c0)
    simp only [List.length_cons]
    omega

theorem rowStep_iElement_le (P : Ctx) (st : MMState) (r : Idx) :
    (rowStep P st r).iElement ≤ st.iElement + 2 * (mmCols P r).length := by
  by_cases hab : st.aborted.isSome
  · rw [rowStep_frozen P st r hab]; omega
  · have h := colfold_iElement_le P r (mmCols P r) (st, st.iRow, true)
    simp only [rowStep]
    rw [if_neg hab]
    revert h
    generalize ((mmCols P r).foldl (colStep P r) (st, st.iRow, true)).1 = res
    intro h
    split_ifs <;> simpa using h

theorem rowsfold_iElement_le (P : Ctx) :
    ∀ (l done : List Idx), mmRows P = done ++ l →
    ∀ (st : MMState),
      (st.aborted = none → st.iRow = done.length) →
      (l.foldl (rowStep P) st).iElement ≤
        st.iElement + 2 * (mmRows P).length * l.length := by
  intro l
  induction l with
  | nil => intro done _ st _; simp
  | cons r0 l ih =>
    intro done hsplit st hiRow
    rw [List.foldl_cons]
    by_cases hab : st.aborted.isSome
    · rw [rowStep_frozen P st r0 hab, foldl_rowStep_frozen P l st hab]
      simp only [List.length_cons]
      nlinarith [List.length_cons r0 l]
    · have habn : st.aborted = none := by rwa [← Option.not_isSome_iff_eq_none]
      have hiR := hiRow habn
      have hr0 : (mmRows P)[done.length]? = some r0 := by
        rw [hsplit, List.getElem?_append_right (le_refl done.length)]
        simp
      have hcols : (mmCols P r0).length ≤ (mmRows P).length := by
        have := cols_len_bound P done.length r0 hr0
        omega
      have hstep := rowStep_iElement_le P st r0
      by_cases habs : (rowStep P st r0).aborted = none
      · have hrec := ih (done ++ [r0]) (by rw [hsplit, List.append_assoc]; rfl)
          (rowStep P st r0)
          (by intro _; rw [rowStep_iRow_of_none P st r0 habn habs, hiR]; simp)
        simp only [List.length_cons]
        nlinarith [hrec, hstep, hcols]
      · rw [foldl_rowStep_frozen P l _ (by rwa [Option.isSome_iff_ne_none])]
        simp only [List.length_cons]
        nlinarith [hstep, hcols]

theorem makematrix_iElement_le (P : Ctx) :
    (makematrix P).iElement ≤ 2 * (mmRows P).length * (mmRows P).length := by
  unfold makematrix
  have := rowsfold_iElement_le P (mmRows P) [] rfl ⟨[], 0, 0, none⟩ (fun _ => rfl)
  simpa using this

/-- The element-capacity abort implies the element counter reached the
capacity. -/
theorem storeBlock_elem_abort (P : Ctx) (st : MMState) (r c : Idx) (iCol : ℕ) (d : Bool)
    (hinv : st.aborted = some AbortKind.elements → ((st.iElement : ℕ) : ℤ) ≥ P.maxElements) :
    (storeBlock P st r c iCol d).aborted = some AbortKind.elements →
      (((storeBlock P st r c iCol d).iElement : ℕ) : ℤ) ≥ P.maxElements := by
  simp only [storeBlock]
  split_ifs with h1 h2 h3 h3
  · intro _; exact h3
  · intro h; exact le_trans (hinv h) (by push_cast; omega)
  · intro _; exact h3
  · intro h; exact le_trans (hinv h) (by push_cast; omega)
  · exact hinv

theorem colStep_elem_abort (P : Ctx) (r : Idx) (s : MMState × ℕ × Bool) (c : Idx)
    (hinv : s.1.aborted = some AbortKind.elements → ((s.1.iElement : ℕ) : ℤ) ≥ P.maxElements) :
    (colStep P r s c).1.aborted = some AbortKind.elements →
      (((colStep P r s c).1.iElement : ℕ) : ℤ) ≥ P.maxElements := by
  simp only [colStep]
  split_ifs with h1 h2 h3
  · exact hinv
  · exact storeBlock_elem_abort P s.1 r c s.2.1 s.2.2 hinv
  · intro h
    simp at h
  · exact storeBlock_elem_abort P s.1 r c s.2.1 s.2.2 hinv

theorem colfold_elem_abort (P : Ctx) (r : Idx) (l : List Idx) (s : MMState × ℕ × Bool)
    (hinv : s.1.aborted = some AbortKind.elements → ((s.1.iElement : ℕ) : ℤ) ≥ P.maxElements) :
    ((l.foldl (colStep P r) s).1).aborted = some AbortKind.elements →
      ((((l.foldl (colStep P r) s).1).iElement : ℕ) : ℤ) ≥ P.maxElements := by
  induction l generalizing s with
  | nil => exact hinv
  | cons c0 l ih =>
    rw [List.foldl_cons]
    exact ih (colStep P r s c0) (colStep_elem_abort P r s c0 hinv)

theorem rowStep_elem_abort (P : Ctx) (st : MMState) (r : Idx)
    (hinv : st.aborted = some AbortKind.elements → ((st.iElement : ℕ) : ℤ) ≥ P.maxElements) :
    (rowStep P st r).aborted = some AbortKind.elements →
      (((rowStep P st r).iElement : ℕ) : ℤ) ≥ P.maxElements := by
  by_cases hab : st.aborted.isSome
  · rw [rowStep_frozen P st r hab]; exact hinv
  · have h := colfold_elem_abort P r (mmCols P r) (st, st.iRow, true) hinv
    simp only [rowStep]
    rw [if_neg hab]
    revert h
    generalize ((mmCols P r).foldl (colStep P r) (st, st.iRow, true)).1 = res
    intro h
    split_ifs with h1 h2
    · exact h
    · intro hx; simp at hx
    · simpa using h

theorem rowsfold_elem_abort (P : Ctx) (l : List Idx) (st : MMState)
    (hinv : st.aborted = some AbortKind.elements → ((st.iElement : ℕ) : ℤ) ≥ P.maxElements) :
    ((l.foldl (rowStep P) st).aborted = some AbortKind.elements →
      (((l.foldl (rowStep P) st).iElement : ℕ) : ℤ) ≥ P.maxElements) := by
  induction l generalizing st with
  | nil => exact hinv
  | cons r l ih =>
    rw [List.foldl_cons]
    exact ih (rowStep P st r) (rowStep_elem_abort P st r hinv)

theorem makematrix_elem_abort (P : Ctx) :
    (makematrix P).aborted = some AbortKind.elements →
      (((makematrix P).iElement : ℕ) : ℤ) ≥ P.maxElements := by
  unfold makematrix
  exact rowsfold_elem_abort P (mmRows P) ⟨[], 0, 0, none⟩ (by intro h; cases h)

/-- If the row and element capacities dominate the enumeration size, the
assembly pass completes without any fatal abort. -/
theorem makematrix_no_abort (P : Ctx)
    (hrows : (((mmRows P).length : ℕ) : ℤ) < P.maxRows)
    (helems : ((2 * (mmRows P).length * (mmRows P).length : ℕ) : ℤ) < P.maxElements) :
    (makematrix P).aborted = none := by
  cases habort : (makematrix P).aborted with
  | none => rfl
  | some k =>
    cases k with
    | dimension => exact absurd habort (makematrix_no_dim P hrows)
    | elements =>
      have h1 := makematrix_elem_abort P habort
      have h2 := makematrix_iElement_le P
      have : (((makematrix P).iElement : ℕ) : ℤ) ≤
          ((2 * (mmRows P).length * (mmRows P).length : ℕ) : ℤ) := by
        exact_mod_cast h2
      omega

/-! Vanishing of the coherent part when every interaction is zero, and the
shape of the diffusion part in special contexts (claims C2, C5, C6). -/

theorem Rint2_zero (P : Ctx) (Re : ℤ → ℝ) (Im : Option (ℤ → ℝ)) (r c : Idx)
    (hRe : ∀ k, Re k = 0) (hIm : ∀ f, Im = some f → ∀ k, f k = 0) :
    Rint2 P Re Im r c = 0 := by
  unfold Rint2
  rcases Im with _ | f
  · split_ifs <;> simp [hRe]
  · have hf := hIm f rfl
    split_ifs <;> simp [hRe, hf]

theorem EZterm_zero (P : Ctx) (r c : Idx) (hE : P.EZI0 = 0)
    (hRe : ∀ k, P.ReEZI2 k = 0) (hIm : ∀ f, P.ImEZI2 = some f → ∀ k, f k = 0) :
    EZterm P r c = 0 := by
  unfold EZterm
  rw [Rint2_zero P _ _ r c hRe hIm]
  split_ifs <;> simp [hE]

theorem HFterm_zero (P : Ctx) (r c : Idx) (hH : P.HFI0 = 0)
    (hRe : ∀ k, P.ReHFI2 k = 0) (hIm : ∀ f, P.ImHFI2 = some f → ∀ k, f k = 0) :
    HFterm P r c = 0 := by
  unfold HFterm
  rw [Rint2_zero P _ _ r c hRe hIm]
  split_ifs <;> simp [hH]

theorem HFbterm_zero (P : Ctx) (r c : Idx) (hH : P.HFI0b = 0)
    (hRe : ∀ k, P.ReHFI2b k = 0) (hIm : ∀ f, P.ImHFI2b = some f → ∀ k, f k = 0) :
    HFbterm P r c = 0 := by
  unfold HFbterm
  rw [Rint2_zero P _ _ r c hRe hIm]
  split_ifs <;> simp [hH]

theorem NZterm_zero (P : Ctx) (r c : Idx) (hN : P.NZI0 = 0) (hNb : P.NZI0b = 0) :
    NZterm P r c = 0 := by
  unfold NZterm
  split_ifs <;> simp [hN, hNb]

/-- With all Zeeman and hyperfine rank-0 scalars and rank-2 tensors zero, the
Liouville element vanishes for every pair. -/
theorem LiouvilleElement_zero (P : Ctx) (r c : Idx)
    (hE : P.EZI0 = 0) (hReE : ∀ k, P.ReEZI2 k = 0)
    (hImE : ∀ f, P.ImEZI2 = some f → ∀ k, f k = 0)
    (hH : P.HFI0 = 0) (hReH : ∀ k, P.ReHFI2 k = 0)
    (hImH : ∀ f, P.ImHFI2 = some f → ∀ k, f k = 0)
    (hHb : P.HFI0b = 0) (hReHb : ∀ k, P.ReHFI2b k = 0)
    (hImHb : ∀ f, P.ImHFI2b = some f → ∀ k, f k = 0)
    (hN : P.NZI0 = 0) (hNb : P.NZI0b = 0) :
    LiouvilleElement P r c = 0 := by
  unfold LiouvilleElement
  rw [EZterm_zero P r c hE hReE hImE, HFterm_zero P r c hH hReH hImH,
    HFbterm_zero P r c hHb hReHb hImHb, NZterm_zero P r c hN hNb]
  split_ifs <;> simp

theorem PotSum_zero_jjj (P : Ctx) (r c : Idx) (hj : P.jjj = fun _ _ _ _ _ _ => 0) :
    PotSum P r c = 0 := by
  unfold PotSum potTerm1 potTerm2
  rw [hj]
  simp

theorem PotDiff_zero_jjj (P : Ctx) (r c : Idx) (hj : P.jjj = fun _ _ _ _ _ _ => 0) :
    PotDiff P r c = 0 := by
  unfold PotDiff
  rw [PotSum_zero_jjj P r c hj]
  split_ifs <;> simp

theorem ExchTerm_zero (P : Ctx) (r c : Idx) (hX : P.Exchange = 0) : ExchTerm P r c = 0 := by
  unfold ExchTerm
  simp [hX]

/-- Shape of the diffusion element when there is no potential and no
exchange: only the potential-independent part remains. -/
theorem GammaElement_diff_only (P : Ctx) (r c : Idx) (hpot : P.maxL < 0)
    (hX : P.Exchange = 0) :
    GammaElement P r c =
      if (r.pS - c.pS = 0 ∧ r.qS - c.qS = 0) ∧
         (r.pI - c.pI = 0 ∧ r.qI - c.qI = 0 ∧ r.pIb - c.pIb = 0 ∧ r.qIb - c.qIb = 0) then
        (if r.L - c.L = 0 ∧ r.M - c.M = 0 ∧ r.jK - c.jK = 0 then
           (if r.K - c.K = 0 then IsoDiffKdiag P r.L r.K
            else if r.K - c.K = 2 then IsoDiffKm2 P r.L r.K / N_K r.K c.K
            else if r.K - c.K = -2 then IsoDiffKp2 P r.L r.K / N_K r.K c.K
            else 0)
         else 0)
      else 0 := by
  unfold GammaElement
  rw [ExchTerm_zero P r c hX,
    if_neg (show ¬(P.maxL ≥ 0 ∧ r.M - c.M = 0 ∧ r.jK - c.jK = 0) from fun h => by omega)]
  split_ifs <;> ring

/-- Shape of the diffusion element when the diffusion tensor is isotropic,
the coupling primitive is the zero function and there is no exchange: only
the K-diagonal part remains. -/
theorem GammaElement_iso (P : Ctx) (r c : Idx) (hRxy : P.Rxx = P.Ryy)
    (hj : P.jjj = fun _ _ _ _ _ _ => 0) (hX : P.Exchange = 0) :
    GammaElement P r c =
      if (r.pS - c.pS = 0 ∧ r.qS - c.qS = 0) ∧
         (r.pI - c.pI = 0 ∧ r.qI - c.qI = 0 ∧ r.pIb - c.pIb = 0 ∧ r.qIb - c.qIb = 0) then
        (if (r.L - c.L = 0 ∧ r.M - c.M = 0 ∧ r.jK - c.jK = 0) ∧ r.K - c.K = 0 then
           IsoDiffKdiag P r.L r.K
         else 0)
      else 0 := by
  unfold GammaElement
  rw [ExchTerm_zero P r c hX]
  have hm2 : IsoDiffKm2 P r.L r.K = 0 := by
    unfold IsoDiffKm2
    rw [if_neg (by simp [hRxy])]
  have hp2 : IsoDiffKp2 P r.L r.K = 0 := by
    unfold IsoDiffKp2
    rw [if_neg (by simp [hRxy])]
  have hpd : PotDiff P r c = 0 := PotDiff_zero_jjj P r c hj
  rw [hm2, hp2, hpd]
  split_ifs <;> simp_all


/-! Evaluation of the enumerations at the concrete contexts. The enumeration
reads only the truncation options, the spins and the director tilt, so it is
invariant under changes of the remaining parameters. -/

theorem mmRows_congr (P Q : Ctx) (hB : P.B = Q.B) (hI : P.I = Q.I) (hIb : P.Ib = Q.Ib)
    (hD : P.DirTilt = Q.DirTilt) : mmRows P = mmRows Q := by
  unfold mmRows rowsJK rowsK rowsM rowsPS rowsQS rowsPI rowsQI rowsPIb rowsQIb
  simp only [hB, hI, hIb, hD]

theorem mmCols_congr (P Q : Ctx) (r : Idx) (hB : P.B = Q.B) (hI : P.I = Q.I)
    (hIb : P.Ib = Q.Ib) (hD : P.DirTilt = Q.DirTilt) : mmCols P r = mmCols Q r := by
  unfold mmCols colsJK colsK colsM colsPS colsQS colsPI colsQI colsPIb colsQIb
  simp only [hB, hI, hIb, hD]

theorem mmRows_ctxRh (me : ℤ) : mmRows (ctxRh me) = [Ridx0, Ridx1, Ridx2] := by
  rw [mmRows_congr (ctxRh me) (ctxRh 1) rfl rfl rfl rfl]
  decide

theorem mmCols_ctxRh0 (me : ℤ) : mmCols (ctxRh me) Ridx0 = [Ridx0, Ridx1, Ridx2] := by
  rw [mmCols_congr (ctxRh me) (ctxRh 1) Ridx0 rfl rfl rfl rfl]
  decide

theorem mmCols_ctxRh1 (me : ℤ) : mmCols (ctxRh me) Ridx1 = [Ridx1, Ridx2] := by
  rw [mmCols_congr (ctxRh me) (ctxRh 1) Ridx1 rfl rfl rfl rfl]
  decide

theorem mmCols_ctxRh2 (me : ℤ) : mmCols (ctxRh me) Ridx2 = [Ridx2] := by
  rw [mmCols_congr (ctxRh me) (ctxRh 1) Ridx2 rfl rfl rfl rfl]
  decide

theorem mmRows_ctxIso (mL : ℤ) (x : ℤ → ℝ) :
    mmRows (ctxIso mL x) = [Sidx0, Sidx1, Sidx2, Sidx3, Sidx4] := by
  rw [mmRows_congr (ctxIso mL x) (ctxIso 0 (fun _ => 0)) rfl rfl rfl rfl]
  decide

theorem mmCols_ctxIso4 (mL : ℤ) (x : ℤ → ℝ) : mmCols (ctxIso mL x) Sidx4 = [Sidx4] := by
  rw [mmCols_congr (ctxIso mL x) (ctxIso 0 (fun _ => 0)) Sidx4 rfl rfl rfl rfl]
  decide

theorem BasisSize_ctxIso (mL : ℤ) (x : ℤ → ℝ) : BasisSize (ctxIso mL x) = 5 := by
  unfold BasisSize
  rw [bsRows_eq_mmRows, mmRows_ctxIso]
  rfl

theorem BasisSize_ctxRh (me : ℤ) : BasisSize (ctxRh me) = 3 := by
  unfold BasisSize
  rw [bsRows_eq_mmRows, mmRows_ctxRh]
  rfl

/-! Element values at the rhombic context. -/

theorem liou_ctxRh (me : ℤ) (r c : Idx) : LiouvilleElement (ctxRh me) r c = 0 :=
  LiouvilleElement_zero _ r c rfl (fun _ => rfl) (fun _ h => nomatch h) rfl (fun _ => rfl)
    (fun _ h => nomatch h) rfl (fun _ => rfl) (fun _ h => nomatch h) rfl rfl

theorem gam_ctxRh_self (me : ℤ) (r : Idx) : GammaElement (ctxRh me) r r = 0 := by
  rw [GammaElement_diff_only _ r r (by norm_num [ctxRh]) rfl]
  norm_num [IsoDiffKdiag, ctxRh]

theorem gam_ctxRh_Lne (me : ℤ) (r c : Idx) (h : r.L ≠ c.L) :
    GammaElement (ctxRh me) r c = 0 := by
  rw [GammaElement_diff_only _ r c (by norm_num [ctxRh]) rfl]
  have hc : ¬(r.L - c.L = 0 ∧ r.M - c.M = 0 ∧ r.jK - c.jK = 0) := by
    intro hcon
    exact h (by omega)
  rw [if_neg hc]
  split_ifs <;> rfl

theorem gam_ctxRh_12 (me : ℤ) :
    GammaElement (ctxRh me) Ridx1 Ridx2 = Real.sqrt 24 / 2 * Real.sqrt 2 := by
  rw [GammaElement_diff_only _ Ridx1 Ridx2 (by norm_num [ctxRh]) rfl]
  norm_num [Ridx1, Ridx2, IsoDiffKp2, N_K, ctxRh]
  ring

theorem gam_ctxRh_12_ne (me : ℤ) : GammaElement (ctxRh me) Ridx1 Ridx2 ≠ 0 := by
  rw [gam_ctxRh_12]
  have h24 : (0 : ℝ) < Real.sqrt 24 := Real.sqrt_pos.mpr (by norm_num)
  have h2 : (0 : ℝ) < Real.sqrt 2 := Real.sqrt_pos.mpr (by norm_num)
  positivity

/-! Step-by-step evaluation of the assembly pass. -/

theorem storeBlock_skip (P : Ctx) (st : MMState) (r c : Idx) (iCol : ℕ) (d : Bool)
    (hg : GammaElement P r c = 0) (hl : LiouvilleElement P r c = 0) :
    storeBlock P st r c iCol d = st := by
  unfold storeBlock
  rw [if_neg (by simp [hg, hl])]

theorem colStep_skip (P : Ctx) (r c : Idx) (st : MMState) (iCol : ℕ) (d : Bool)
    (hab : st.aborted = none) (hg : GammaElement P r c = 0) (hl : LiouvilleElement P r c = 0)
    (hcap : ((iCol + 1 : ℕ) : ℤ) < P.maxRows) :
    colStep P r (st, iCol, d) c = (st, iCol + 1, false) := by
  unfold colStep
  rw [if_neg (by simp [hab])]
  simp only [storeBlock_skip P st r c iCol d hg hl]
  rw [if_neg (by simp [hab]), if_neg (by omega)]

theorem colStep_store_abort (P : Ctx) (r c : Idx) (st : MMState) (iCol : ℕ)
    (hab : st.aborted = none)
    (hnz : GammaElement P r c ≠ 0 ∨ LiouvilleElement P r c ≠ 0)
    (hcap : ((st.iElement + 2 : ℕ) : ℤ) ≥ P.maxElements) :
    colStep P r (st, iCol, false) c =
      ({ entries := st.entries ++
           [⟨st.iElement, st.iRow, iCol, GammaElement P r c, -LiouvilleElement P r c, r, c⟩,
            ⟨st.iElement + 1, iCol, st.iRow, GammaElement P r c, -LiouvilleElement P r c, r, c⟩],
         iElement := st.iElement + 2, iRow := st.iRow,
         aborted := some AbortKind.elements }, iCol, false) := by
  unfold colStep storeBlock
  rw [if_neg (by simp [hab]), if_pos hnz]
  simp only [Bool.false_eq_true, if_false]
  rw [if_pos (show ((st.iElement + 1 + 1 : ℕ) : ℤ) ≥ P.maxElements by push_cast at hcap ⊢; omega)]
  simp [List.append_assoc]

theorem rowStep_eval (P : Ctx) (st : MMState) (r : Idx) (res : MMState)
    (hab : st.aborted = none)
    (hres : ((mmCols P r).foldl (colStep P r) (st, st.iRow, true)).1 = res)
    (hresab : res.aborted = none)
    (hcap : ((res.iRow + 1 : ℕ) : ℤ) < P.maxRows) :
    rowStep P st r = { res with iRow := res.iRow + 1 } := by
  unfold rowStep
  rw [if_neg (by simp [hab])]
  simp only [hres]
  rw [if_neg (by simp [hresab]), if_neg (by omega)]

theorem rowStep_some (P : Ctx) (E : List Entry) (n m : ℕ) (k : AbortKind) (r : Idx) :
    rowStep P ⟨E, n, m, some k⟩ r = ⟨E, n, m, some k⟩ := rowStep_frozen _ _ _ rfl

theorem rowStep_eval_abort (P : Ctx) (st : MMState) (r : Idx) (res : MMState)
    (hab : st.aborted = none)
    (hres : ((mmCols P r).foldl (colStep P r) (st, st.iRow, true)).1 = res)
    (hresab : res.aborted.isSome = true) :
    rowStep P st r = res := by
  unfold rowStep
  rw [if_neg (by simp [hab])]
  simp only [hres]
  rw [if_pos hresab]

/-- Full evaluation of the assembly pass on the rhombic context when the
element capacity is at most 2: the single nonzero pair (Ridx1, Ridx2) is
stored together with its mirror, and only then does the capacity check fire.
The mirrored write lands at buffer index 1, which is at or past the capacity
whenever maxElements is 1 or 2. -/
theorem makematrix_ctxRh_eval (me : ℤ) (hme : me ≤ 2) :
    makematrix (ctxRh me) =
      ⟨[⟨0, 1, 2, Real.sqrt 24 / 2 * Real.sqrt 2, 0, Ridx1, Ridx2⟩,
        ⟨1, 2, 1, Real.sqrt 24 / 2 * Real.sqrt 2, 0, Ridx1, Ridx2⟩],
       2, 1, some AbortKind.elements⟩ := by
  have hrow0 : rowStep (ctxRh me) ⟨[], 0, 0, none⟩ Ridx0 = ⟨[], 0, 1, none⟩ := by
    have hfold : ((mmCols (ctxRh me) Ridx0).foldl (colStep (ctxRh me) Ridx0)
        ((⟨[], 0, 0, none⟩ : MMState), 0, true)).1 = (⟨[], 0, 0, none⟩ : MMState) := by
      rw [mmCols_ctxRh0, List.foldl_cons,
        colStep_skip _ _ _ _ _ _ rfl (gam_ctxRh_self me Ridx0) (liou_ctxRh me _ _)
          (by norm_num [ctxRh]),
        List.foldl_cons,
        colStep_skip _ _ _ _ _ _ rfl (gam_ctxRh_Lne me _ _ (by decide)) (liou_ctxRh me _ _)
          (by norm_num [ctxRh]),
        List.foldl_cons,
        colStep_skip _ _ _ _ _ _ rfl (gam_ctxRh_Lne me _ _ (by decide)) (liou_ctxRh me _ _)
          (by norm_num [ctxRh]),
        List.foldl_nil]
    exact rowStep_eval _ _ _ _ rfl (by simpa using hfold) rfl (by norm_num [ctxRh])
  have hrow1 : rowStep (ctxRh me) ⟨[], 0, 1, none⟩ Ridx1 =
      ⟨[⟨0, 1, 2, GammaElement (ctxRh me) Ridx1 Ridx2,
          -LiouvilleElement (ctxRh me) Ridx1 Ridx2, Ridx1, Ridx2⟩,
        ⟨1, 2, 1, GammaElement (ctxRh me) Ridx1 Ridx2,
          -LiouvilleElement (ctxRh me) Ridx1 Ridx2, Ridx1, Ridx2⟩],
       2, 1, some AbortKind.elements⟩ := by
    have hfold : ((mmCols (ctxRh me) Ridx1).foldl (colStep (ctxRh me) Ridx1)
        ((⟨[], 0, 1, none⟩ : MMState), 1, true)).1 =
        (⟨[⟨0, 1, 2, GammaElement (ctxRh me) Ridx1 Ridx2,
             -LiouvilleElement (ctxRh me) Ridx1 Ridx2, Ridx1, Ridx2⟩,
           ⟨1, 2, 1, GammaElement (ctxRh me) Ridx1 Ridx2,
             -LiouvilleElement (ctxRh me) Ridx1 Ridx2, Ridx1, Ridx2⟩],
          2, 1, some AbortKind.elements⟩ : MMState) := by
      rw [mmCols_ctxRh1, List.foldl_cons,
        colStep_skip _ _ _ _ _ _ rfl (gam_ctxRh_self me Ridx1) (liou_ctxRh me _ _)
          (by norm_num [ctxRh]),
        List.foldl_cons,
        colStep_store_abort _ _ _ _ _ rfl (Or.inl (gam_ctxRh_12_ne me))
          (by push_cast; norm_num [ctxRh]; omega),
        List.foldl_nil]
      rfl
    exact rowStep_eval_abort _ _ _ _ rfl (by simpa using hfold) rfl
  unfold makematrix
  rw [mmRows_ctxRh, List.foldl_cons, hrow0, List.foldl_cons, hrow1, List.foldl_cons,
    rowStep_some, List.foldl_nil]
  simp [gam_ctxRh_12, liou_ctxRh]

/-! Helpers consumed by the claim theorems. -/

theorem makematrix_complete (P : Ctx) (hab : (makematrix P).aborted = none)
    (i j : ℕ) (r c : Idx) (hr : (mmRows P)[i]? = some r) (hc : (mmCols P r)[j]? = some c)
    (hnz : GammaElement P r c ≠ 0 ∨ LiouvilleElement P r c ≠ 0) :
    ∃ e ∈ (makematrix P).entries, e.rt = r ∧ e.ct = c ∧ e.row = i ∧ e.col = i + j ∧
      e.re = GammaElement P r c ∧ e.im = -LiouvilleElement P r c := by
  unfold makematrix at hab ⊢
  exact rowsfold_complete P (mmRows P) [] ⟨[], 0, 0, none⟩ (by simp) rfl rfl hab i j r c hr
    (by simp) hc hnz

theorem entry_diag_ct (P : Ctx) (e : Entry) (hinv : EntryInv P e) (hrc : e.row = e.col) :
    e.ct = e.rt := by
  obtain ⟨i, j, hr, hc, hnz, hre, him, hpos⟩ := hinv
  have hj : j = 0 := by
    rcases hpos with ⟨h1, h2⟩ | ⟨h1, h2, h3⟩ <;> omega
  subst hj
  have hmem : e.rt ∈ mmRows P := by
    obtain ⟨hlt, heq⟩ := List.getElem?_eq_some.mp hr
    exact heq ▸ List.getElem_mem hlt
  obtain ⟨t, ht⟩ := mmCols_head P e.rt hmem
  rw [ht] at hc
  simp at hc
  exact hc.symm

theorem mem_colsJK_L (P : Ctx) (r : Idx) (L2 : ℤ) (d : Bool) (c : Idx)
    (h : c ∈ colsJK P r L2 d) : c.L = L2 := by
  simp only [colsJK, colsK, colsM, colsPS, colsQS, colsPI, colsQI, colsPIb, colsQIb,
    List.mem_flatMap, List.mem_map, mem_ite_nil_left] at h
  obtain ⟨jK2, hjK2, K2, hK2, hKf, M2, hM2, pS2, hpS2, qS2, hqS2, pI2, hpI2, qI2, hqI2,
    pI2b, hpI2b, hfB, qI2b, hqI2b, heq⟩ := h
  subst heq
  rfl

theorem mem_mmCols_L (P : Ctx) (r c : Idx) (h : c ∈ mmCols P r) :
    r.L ≤ c.L ∧ c.L ≤ r.L + 8 := by
  unfold mmCols at h
  simp only [List.mem_flatMap] at h
  obtain ⟨L2, hL2, hin⟩ := h
  have hcl := mem_colsJK_L P r L2 _ c (mem_of_mem_ite_nil hin)
  have hb := mem_iseq _ _ _ _ hL2
  omega

theorem dcount_pos_of_mem (e : Entry) (L : List Entry) (he : e ∈ L) (hrc : e.row = e.col) :
    1 ≤ dcount e.row L := by
  unfold dcount
  have : 0 < L.countP (fun x => x.row == e.row && x.col == e.row) :=
    List.countP_pos_iff.mpr ⟨e, he, by simp [hrc]⟩
  omega

/-- Case form of the normalization sub-factor: one halving only when both K
indices are zero, a single 1/sqrt(2) when exactly one is. -/
theorem N_K_cases (K1 K2 : ℤ) :
    N_K K1 K2 = (if K1 = 0 ∧ K2 = 0 then (2 : ℝ)⁻¹
      else if K1 = 0 ∨ K2 = 0 then (Real.sqrt 2)⁻¹ else 1) := by
  have h2 : Real.sqrt 2 * Real.sqrt 2 = 2 := Real.mul_self_sqrt (by norm_num)
  unfold N_K
  by_cases h1 : K1 = 0 <;> by_cases hk2 : K2 = 0 <;>
    simp [h1, hk2, div_mul_div_comm, h2, one_div]
  rw [← mul_inv, h2]

/-! The claim theorems. -/

/-- C1: the counting nest of BasisSize and the row-enumeration nest of
makematrix yield the same tuple list — identical filters applied in identical
order, the two spellings of the Meirovitch filter included — so the count
BasisSize returns is the number of enumerated row tuples, which on a
completed assembly run is the final row counter. -/
theorem claim_C1 (P : Ctx) :
    bsRows P = mmRows P ∧ BasisSize P = (mmRows P).length ∧
    ((makematrix P).aborted = none → (makematrix P).iRow = BasisSize P) := by
  refine ⟨bsRows_eq_mmRows P, by unfold BasisSize; rw [bsRows_eq_mmRows], fun h => ?_⟩
  rw [makematrix_iRow P h]
  unfold BasisSize
  rw [bsRows_eq_mmRows]

/-- C2: refutation of the capacity-guard claim. On the spinless rhombic
context with element capacity 1, the assembly pass does abort with the
element-capacity error, but only after committing two writes; the mirrored
entry sits at buffer index 1, at or past the configured capacity, so a write
past the capacity happens before the check fires. -/
theorem claim_C2 :
    (makematrix (ctxRh 1)).aborted = some AbortKind.elements ∧
    ∃ e ∈ (makematrix (ctxRh 1)).entries, (ctxRh 1).maxElements ≤ (e.idx : ℤ) := by
  rw [makematrix_ctxRh_eval 1 (by norm_num)]
  refine ⟨rfl, ⟨1, 2, 1, Real.sqrt 24 / 2 * Real.sqrt 2, 0, Ridx1, Ridx2⟩, by simp, ?_⟩
  norm_num [ctxRh]

/-- C3: every committed off-diagonal entry has a companion with swapped row
and column and identical (unconjugated) values, and every committed diagonal
entry is stored exactly once. -/
theorem claim_C3 (P : Ctx) :
    MirrorProp ((makematrix P).entries) ∧
    (∀ e ∈ (makematrix P).entries, e.row = e.col →
      dcount e.row ((makematrix P).entries) = 1) := by
  obtain ⟨hm, hd⟩ := makematrix_c3 P
  refine ⟨hm, fun e he hrc => ?_⟩
  have h1 := dcount_pos_of_mem e _ he hrc
  have h2 := hd e.row
  omega

/-- C4: on a completed run, an enumerated pair is stored exactly when its
diffusion or Liouville element is exactly nonzero, and every stored entry
carries the diffusion element as real part and the negated Liouville element
as imaginary part. -/
theorem claim_C4 (P : Ctx) (hab : (makematrix P).aborted = none) :
    (∀ (i j : ℕ) (r c : Idx), (mmRows P)[i]? = some r → (mmCols P r)[j]? = some c →
      (GammaElement P r c ≠ 0 ∨ LiouvilleElement P r c ≠ 0) →
      ∃ e ∈ (makematrix P).entries, e.rt = r ∧ e.ct = c ∧
        e.re = GammaElement P r c ∧ e.im = -LiouvilleElement P r c) ∧
    (∀ e ∈ (makematrix P).entries,
      (GammaElement P e.rt e.ct ≠ 0 ∨ LiouvilleElement P e.rt e.ct ≠ 0) ∧
      e.re = GammaElement P e.rt e.ct ∧ e.im = -LiouvilleElement P e.rt e.ct) := by
  constructor
  · intro i j r c hr hc hnz
    obtain ⟨e, he, h1, h2, _, _, h5, h6⟩ := makematrix_complete P hab i j r c hr hc hnz
    exact ⟨e, he, h1, h2, h5, h6⟩
  · intro e he
    obtain ⟨i, j, _, _, hnz, hre, him, _⟩ := makematrix_entryInv P e he
    exact ⟨hnz, hre, him⟩

theorem claim_C4_witness :
    (∀ (i j : ℕ) (r c : Idx),
      (mmRows (ctxIso 0 (fun _ => 1)))[i]? = some r →
      (mmCols (ctxIso 0 (fun _ => 1)) r)[j]? = some c →
      (GammaElement (ctxIso 0 (fun _ => 1)) r c ≠ 0 ∨
        LiouvilleElement (ctxIso 0 (fun _ => 1)) r c ≠ 0) →
      ∃ e ∈ (makematrix (ctxIso 0 (fun _ => 1))).entries, e.rt = r ∧ e.ct = c ∧
        e.re = GammaElement (ctxIso 0 (fun _ => 1)) r c ∧
        e.im = -LiouvilleElement (ctxIso 0 (fun _ => 1)) r c) ∧
    (∀ e ∈ (makematrix (ctxIso 0 (fun _ => 1))).entries,
      (GammaElement (ctxIso 0 (fun _ => 1)) e.rt e.ct ≠ 0 ∨
        LiouvilleElement (ctxIso 0 (fun _ => 1)) e.rt e.ct ≠ 0) ∧
      e.re = GammaElement (ctxIso 0 (fun _ => 1)) e.rt e.ct ∧
      e.im = -LiouvilleElement (ctxIso 0 (fun _ => 1)) e.rt e.ct) :=
  claim_C4 (ctxIso 0 (fun _ => 1)) (makematrix_no_abort _
    (by rw [mmRows_ctxIso]; norm_num [ctxIso]) (by rw [mmRows_ctxIso]; norm_num [ctxIso]))

/-- C5: with all interaction scalars and tensors zero, no exchange, no
potential, zero director tilt and an isotropic diffusion tensor, every
Liouville element vanishes and every committed diagonal entry carries the
diffusion value R0 * L1 * (L1 + 1) of its row tuple. -/
theorem claim_C5 (P : Ctx) (R0 : ℝ)
    (hE : P.EZI0 = 0) (hReE : ∀ k, P.ReEZI2 k = 0)
    (hImE : ∀ f, P.ImEZI2 = some f → ∀ k, f k = 0)
    (hH : P.HFI0 = 0) (hReH : ∀ k, P.ReHFI2 k = 0)
    (hImH : ∀ f, P.ImHFI2 = some f → ∀ k, f k = 0)
    (hHb : P.HFI0b = 0) (hReHb : ∀ k, P.ReHFI2b k = 0)
    (hImHb : ∀ f, P.ImHFI2b = some f → ∀ k, f k = 0)
    (hN : P.NZI0 = 0) (hNb : P.NZI0b = 0) (hX : P.Exchange = 0) (hpot : P.maxL < 0)
    (_hD : P.DirTilt = 0) (hxx : P.Rxx = R0) (hyy : P.Ryy = R0) (hzz : P.Rzz = R0) :
    (∀ r c : Idx, LiouvilleElement P r c = 0) ∧
    (∀ e ∈ (makematrix P).entries, e.row = e.col →
      e.re = R0 * ((e.rt.L * (e.rt.L + 1) : ℤ) : ℝ)) := by
  have hL : ∀ r c : Idx, LiouvilleElement P r c = 0 := fun r c =>
    LiouvilleElement_zero P r c hE hReE hImE hH hReH hImH hHb hReHb hImHb hN hNb
  refine ⟨hL, fun e he hrc => ?_⟩
  have hinv := makematrix_entryInv P e he
  have hct := entry_diag_ct P e hinv hrc
  obtain ⟨i, j, hr, hc, hnz, hre, him, hpos⟩ := hinv
  rw [hre, hct, GammaElement_diff_only P e.rt e.rt hpot hX]
  simp only [sub_self]
  norm_num [IsoDiffKdiag, hxx, hyy, hzz]

theorem claim_C5_witness :
    (∀ r c : Idx, LiouvilleElement (ctxIso (-1) (fun _ => 0)) r c = 0) ∧
    (∀ e ∈ (makematrix (ctxIso (-1) (fun _ => 0))).entries, e.row = e.col →
      e.re = 1 * ((e.rt.L * (e.rt.L + 1) : ℤ) : ℝ)) :=
  claim_C5 (ctxIso (-1) (fun _ => 0)) 1 rfl (fun _ => rfl) (fun _ h => nomatch h) rfl
    (fun _ => rfl) (fun _ h => nomatch h) rfl (fun _ => rfl) (fun _ h => nomatch h)
    rfl rfl rfl (by norm_num [ctxIso]) rfl rfl rfl rfl

/-- C6: the orbital band limit holds for every committed entry - row and
column orbital ranks never differ by more than 8 - while the K band limit of
8 on the K-sum and K-difference gates only the potential-dependent diffusion
term: PotDiff vanishes outside the band. (The original claim's assertion
that no stored entry exceeds the K band when a potential is present is
refuted by claim_C6_cex.) -/
theorem claim_C6 (P : Ctx) :
    (∀ e ∈ (makematrix P).entries, |e.rt.L - e.ct.L| ≤ 8) ∧
    (∀ r c : Idx, ¬(|r.L - c.L| ≤ 8 ∧ |r.K - c.K| ≤ 8 ∧ |r.K + c.K| ≤ 8) →
      PotDiff P r c = 0) := by
  constructor
  · intro e he
    obtain ⟨i, j, hr, hc, _, _, _, _⟩ := makematrix_entryInv P e he
    have hmem : e.ct ∈ mmCols P e.rt := by
      obtain ⟨hlt, heq⟩ := List.getElem?_eq_some.mp hc
      exact heq ▸ List.getElem_mem hlt
    have hb := mem_mmCols_L P e.rt e.ct hmem
    rw [abs_le]
    omega
  · intro r c hcon
    unfold PotDiff
    rw [if_neg]
    intro hgate
    exact hcon ⟨hgate.2.1, hgate.2.2.2.2.1, hgate.2.2.2.2.2⟩

theorem claim_C6_cex :
    0 ≤ (ctxIso 0 (fun _ => 1)).maxL ∧
    ∃ e ∈ (makematrix (ctxIso 0 (fun _ => 1))).entries, 8 < |e.rt.K + e.ct.K| := by
  refine ⟨by norm_num [ctxIso], ?_⟩
  have hab : (makematrix (ctxIso 0 (fun _ => 1))).aborted = none :=
    makematrix_no_abort _ (by rw [mmRows_ctxIso]; norm_num [ctxIso])
      (by rw [mmRows_ctxIso]; norm_num [ctxIso])
  have hr : (mmRows (ctxIso 0 (fun _ => 1)))[4]? = some Sidx4 := by
    rw [mmRows_ctxIso]
    rfl
  have hc : (mmCols (ctxIso 0 (fun _ => 1)) Sidx4)[0]? = some Sidx4 := by
    rw [mmCols_ctxIso4]
    rfl
  have hnz : GammaElement (ctxIso 0 (fun _ => 1)) Sidx4 Sidx4 ≠ 0 := by
    rw [GammaElement_iso _ _ _ rfl rfl rfl]
    norm_num [Sidx4, IsoDiffKdiag, ctxIso]
  obtain ⟨e, he, hrt, hct, _, _, _, _⟩ :=
    makematrix_complete _ hab 4 0 Sidx4 Sidx4 hr hc (Or.inl hnz)
  refine ⟨e, he, ?_⟩
  rw [hrt, hct]
  norm_num [Sidx4]

/-- C7: the potential-dependent diffusion term is scaled by the prefactor
NormFactor = N_L * N_K * parity(M1 + K1) with N_L = sqrt((2 L1 + 1)(2 L2 + 1)),
where N_K contributes one factor 1/sqrt(2) for each of K1, K2 that is zero:
the contribution is halved only when both are zero. (The original claim's
halving whenever K1 or K2 is zero is refuted by claim_C7_cex.) -/
theorem claim_C7 (P : Ctx) (r c : Idx) :
    (PotDiff P r c = 0 ∨ PotDiff P r c = PotSum P r c * NormFactor r c) ∧
    NormFactor r c =
      Real.sqrt (((2 * r.L + 1) * (2 * c.L + 1) : ℤ)) *
        (if r.K = 0 ∧ c.K = 0 then (2 : ℝ)⁻¹
         else if r.K = 0 ∨ c.K = 0 then (Real.sqrt 2)⁻¹ else 1) *
        ((parity (r.M + r.K) : ℤ) : ℝ) := by
  constructor
  · unfold PotDiff
    split_ifs with h
    · exact Or.inr rfl
    · exact Or.inl rfl
  · unfold NormFactor
    rw [N_K_cases]

theorem claim_C7_cex :
    N_K 0 2 = (Real.sqrt 2)⁻¹ ∧ N_K 0 2 ≠ (2 : ℝ)⁻¹ ∧ N_K 0 0 = (2 : ℝ)⁻¹ := by
  have h2 : Real.sqrt 2 * Real.sqrt 2 = 2 := Real.mul_self_sqrt (by norm_num)
  have hs : Real.sqrt 2 ≠ 2 := by
    intro h
    rw [h] at h2
    norm_num at h2
  refine ⟨by simp [N_K, one_div], fun h => ?_,
    by simp [N_K, div_mul_div_comm, h2, one_div]; rw [← mul_inv, h2]⟩
  rw [show N_K 0 2 = (Real.sqrt 2)⁻¹ by simp [N_K, one_div]] at h
  exact hs (inv_injective h)

/-- C8: invocations with an input arity other than 1 or 4, or with four
inputs and an output arity other than 5, are rejected with a fatal error
before any assembly, and only a (4, 5)-arity invocation ever reaches the
assembly pass; the single-input invocation, however, is a debug path that
returns silently before the arity checks, so it is not rejected (original
claim refuted by claim_C8_cex). -/
theorem claim_C8 (nrhs nlhs : ℕ) (P : Ctx) :
    (nrhs = 1 → mexFunction nrhs nlhs P = MexOutcome.debugReturn) ∧
    (nrhs ≠ 1 → nrhs ≠ 4 →
      mexFunction nrhs nlhs P = MexOutcome.err "4 input arguments expected!") ∧
    (nrhs ≠ 1 → nrhs = 4 → nlhs ≠ 5 →
      mexFunction nrhs nlhs P = MexOutcome.err "3 output arguments expected!") ∧
    (∀ st, mexFunction nrhs nlhs P = MexOutcome.done st → nrhs = 4 ∧ nlhs = 5) := by
  refine ⟨fun h1 => by unfold mexFunction; rw [if_pos h1],
    fun h1 h4 => by unfold mexFunction; rw [if_neg h1, if_pos h4],
    fun h1 h4 h5 => by unfold mexFunction; rw [if_neg h1, if_neg (fun hc => hc h4), if_pos h5],
    fun st h => ?_⟩
  unfold mexFunction at h
  by_cases h1 : nrhs = 1
  · rw [if_pos h1] at h
    exact absurd h (by simp)
  rw [if_neg h1] at h
  by_cases h4 : nrhs ≠ 4
  · rw [if_pos h4] at h
    exact absurd h (by simp)
  rw [if_neg h4] at h
  by_cases h5 : nlhs ≠ 5
  · rw [if_pos h5] at h
    exact absurd h (by simp)
  push_neg at h4 h5
  exact ⟨h4, h5⟩

theorem claim_C8_cex :
    mexFunction 1 0 (ctxRh 1) = MexOutcome.debugReturn ∧
    ∀ m, mexFunction 1 0 (ctxRh 1) ≠ MexOutcome.err m := by
  refine ⟨rfl, fun m h => ?_⟩
  rw [show mexFunction 1 0 (ctxRh 1) = MexOutcome.debugReturn from rfl] at h
  exact absurd h (by simp)

/-- C9: on the 4-input path the row capacity supplied by the caller is
irrelevant - it is overwritten with BasisSize() + 1 before assembly, so the
outcome is unchanged under any supplied value, and the row counter of the
enumeration stays strictly below the overwritten capacity, so the dimension
abort can never fire on a done outcome. -/
theorem claim_C9 (P : Ctx) (mr : ℤ) :
    (∀ nlhs, mexFunction 4 nlhs { P with maxRows := mr } = mexFunction 4 nlhs P) ∧
    (∀ st, mexFunction 4 5 P = MexOutcome.done st →
      st.aborted ≠ some AbortKind.dimension) := by
  have hBS : BasisSize { P with maxRows := mr } = BasisSize P := by
    unfold BasisSize
    rw [bsRows_eq_mmRows, bsRows_eq_mmRows,
      mmRows_congr { P with maxRows := mr } P rfl rfl rfl rfl]
  constructor
  · intro nlhs
    unfold mexFunction
    by_cases h5 : nlhs ≠ 5
    · rw [if_neg (by norm_num), if_neg (by norm_num), if_pos h5,
        if_neg (by norm_num), if_neg (by norm_num), if_pos h5]
    · rw [if_neg (by norm_num), if_neg (by norm_num), if_neg h5,
        if_neg (by norm_num), if_neg (by norm_num), if_neg h5, hBS]
  · intro st h
    unfold mexFunction at h
    rw [if_neg (by norm_num), if_neg (by norm_num), if_neg (by norm_num)] at h
    have hst : st = makematrix { P with maxRows := ((BasisSize P : ℕ) : ℤ) + 1 } := by
      injection h with h'
      exact h'.symm
    rw [hst]
    apply makematrix_no_dim
    rw [mmRows_congr { P with maxRows := ((BasisSize P : ℕ) : ℤ) + 1 } P rfl rfl rfl rfl]
    show ((mmRows P).length : ℤ) < ((BasisSize P : ℕ) : ℤ) + 1
    unfold BasisSize
    rw [bsRows_eq_mmRows]
    omega

/-- C10: the basis count depends only on the truncation options, the two
spins and the director tilt; any two parameter records agreeing on those
fields - whatever their magnetic, diffusion, exchange or potential data -
give the same BasisSize. -/
theorem claim_C10 (P Q : Ctx) (hB : P.B = Q.B) (hI : P.I = Q.I) (hIb : P.Ib = Q.Ib)
    (hD : P.DirTilt = Q.DirTilt) : BasisSize P = BasisSize Q := by
  unfold BasisSize
  rw [bsRows_eq_mmRows, bsRows_eq_mmRows, mmRows_congr P Q hB hI hIb hD]

theorem claim_C10_witness :
    BasisSize (ctxIso 0 (fun _ => 1)) = BasisSize (ctxIso (-1) (fun _ => 0)) :=
  claim_C10 _ _ rfl rfl rfl rfl

end

end Chili
